import Mathlib

/-!
Verification of the via-fence generator of RF-tools-KiCAD.

The Python geometry engine (`viafence.py`, `viafence_action.py`) is shallowly
embedded here: floats become real numbers, Python lists become `List`,
Python `IndexError` / `ZeroDivisionError` become an explicit `Except` error
monad, and the external `pyclipper` polygon library is abstracted as a
record of function parameters (`ClipperEnv`), exactly as the code treats it
as an opaque capability.  Python's negative-index list access, `int()`
truncation and `%` semantics are modelled explicitly.
-/

namespace ViaFence

open scoped Classical

noncomputable section

/-- Python runtime errors that the modelled code can raise. -/
inductive PyErr where
  | indexError
  | zeroDivision
  deriving DecidableEq, Repr

/-- A 2D point with real coordinates (models a Python `[x, y]` pair of floats). -/
abbrev PointR := ℝ × ℝ

/-- A path: ordered list of vertices. -/
abbrev PathR := List PointR

/-- Python `int()` applied to a float: truncation toward zero. -/
def pyInt (x : ℝ) : ℤ := if 0 ≤ x then ⌊x⌋ else ⌈x⌉

/-- Python `round()`: round half to even (banker's rounding). -/
def pyRound (x : ℝ) : ℤ :=
  if Int.fract x = 1/2 then (if Even ⌊x⌋ then ⌊x⌋ else ⌊x⌋ + 1) else round x

/-- Python list indexing `l[i]`: negative indices wrap once from the end,
out-of-range access raises `IndexError`. -/
def pyGet {α : Type} (l : List α) (i : ℤ) : Except PyErr α :=
  let j : ℤ := if i < 0 then i + l.length else i
  if h : 0 ≤ j ∧ j < (l.length : ℤ) then
    .ok (l.get ⟨j.toNat, by omega⟩)
  else
    .error .indexError

/-- Python `l[-1]` for a list known to be nonempty (total version with default). -/
def pyLast (l : List ℝ) : ℝ := l.getLastD 0

/-- Python `l[-1]` on a vertex list known to be nonempty. -/
def pyLastP (l : PathR) : PointR := l.getLastD (0, 0)

/-- In-range Python list access on a vertex list (total version with default;
only used where the source guarantees the index is in range). -/
def pyG (l : PathR) (i : ℕ) : PointR := l.getD i (0, 0)

/-- `math.atan2(y, x)`: the angle of the vector `(x, y)` in `(-pi, pi]`
(0 at the origin, as in CPython for non-negative zeros). -/
def atan2 (y x : ℝ) : ℝ :=
  if 0 < x then Real.arctan (y / x)
  else if x < 0 then
    (if 0 ≤ y then Real.arctan (y / x) + Real.pi else Real.arctan (y / x) - Real.pi)
  else
    (if 0 < y then Real.pi / 2 else if y < 0 then -(Real.pi / 2) else 0)

/-- `math.hypot` distance of two points, as used by `getLineLength`. -/
def lineLength (a b : PointR) : ℝ :=
  Real.sqrt ((a.1 - b.1) ^ 2 + (a.2 - b.2) ^ 2)

/-- `getLineSlope([a, b])`: slope of a line, `atan2(a.y - b.y, a.x - b.x)`. -/
def getLineSlope (a b : PointR) : ℝ := atan2 (a.2 - b.2) (a.1 - b.1)

/-- `getLineLength(line)`: reads exactly `line[0]` and `line[1]`; a list with
fewer than two entries raises `IndexError`.  Note that when the source passes a
whole multi-vertex path here, only the first segment is measured. -/
def getLineLength (line : PathR) : Except PyErr ℝ :=
  match line with
  | a :: b :: _ => .ok (lineLength a b)
  | _ => .error .indexError

/-- Lengths of the consecutive segments of a path. -/
def segLengths (path : PathR) : List ℝ :=
  (path.zip path.tail).map (fun ab => lineLength ab.2 ab.1)

/-- `getPathCumDist(path)`: cumulative distance vector, starting at `0.0`.
For an empty or one-point path this is `[0]`, matching the source. -/
def getPathCumDist (path : PathR) : List ℝ :=
  (segLengths path).scanl (· + ·) 0

/-- Total length of a path: last entry of its cumulative distance vector. -/
def totalLen (path : PathR) : ℝ := pyLast (getPathCumDist path)

/-- `bisect.bisect_left(l, x)` for the sorted lists the source feeds it:
the number of entries strictly below `x`. -/
def bisectLeft (l : List ℝ) (x : ℝ) : ℕ :=
  l.countP (fun a => decide (a < x))

/-- The `slopes` list computed in `LinearInterpolator.__init__`:
`(y2 - y1)/(x2 - x1)` over consecutive pairs. -/
def slopesOf (xs ys : List ℝ) : List ℝ :=
  List.zipWith (fun a b => (b.2 - b.1) / (a.2 - a.1)) (xs.zip xs.tail) (ys.zip ys.tail)

/-- `LinearInterpolator.__call__(x)`: `i = bisect_left(x_list, x) - 1` then
`y_list[i] + slopes[i] * (x - x_list[i])`, with Python index semantics
(so `i = -1` wraps to the last entry and `i = len(x_list) - 1` overruns
`slopes` and raises `IndexError`). -/
def linCall (xs ys : List ℝ) (x : ℝ) : Except PyErr ℝ := do
  let yi ← pyGet ys ((bisectLeft xs x : ℤ) - 1)
  let si ← pyGet (slopesOf xs ys) ((bisectLeft xs x : ℤ) - 1)
  let xi ← pyGet xs ((bisectLeft xs x : ℤ) - 1)
  pure (yi + si * (x - xi))

/-- `LinearInterpolator.__init__`: computing the slopes divides by
`x2 - x1`, so a repeated abscissa raises `ZeroDivisionError` up front. -/
def mkLinearInterpolator (xs ys : List ℝ) : Except PyErr (ℝ → Except PyErr ℝ) :=
  if (xs.zip xs.tail).any (fun a => decide (a.2 - a.1 = 0)) then
    .error .zeroDivision
  else
    .ok (linCall xs ys)

/-- `PathInterpolator.__init__`: two `LinearInterpolator`s over the x and y
coordinates; `__call__` returns the interpolated pair. -/
def mkPathInterpolator (t : List ℝ) (path : PathR) :
    Except PyErr (ℝ → Except PyErr PointR) := do
  let xI ← mkLinearInterpolator t (path.map Prod.fst)
  let yI ← mkLinearInterpolator t (path.map Prod.snd)
  pure (fun d => do
    let x ← xI d
    let y ← yI d
    pure (x, y))

/-- Constructing a `PathInterpolator` and evaluating it at one parameter. -/
def pathInterpAt (t : List ℝ) (path : PathR) (d : ℝ) : Except PyErr PointR := do
  let f ← mkPathInterpolator t path
  f d

/-- Integer range `[a, b)` as a list, like Python `range(a, b)`. -/
def intRange (a b : ℤ) : List ℤ :=
  (List.range (b - a).toNat).map (fun (k : ℕ) => a + (k : ℤ))

/-- `distributeAlongPath(path, minimumSpacing)`: `nPoints =
int(floor(total/minimumSpacing))` (a zero spacing raises
`ZeroDivisionError`), then interpolated points at `ptIdx * total / nPoints`
for `ptIdx in range(1, nPoints)`. -/
def distributeAlongPath (path : PathR) (minimumSpacing : ℝ) :
    Except PyErr (List PointR) := do
  let distList := getPathCumDist path
  if minimumSpacing = 0 then throw .zeroDivision else
  let nPoints : ℤ := ⌊pyLast distList / minimumSpacing⌋
  let ptInterp ← mkPathInterpolator distList path
  (intRange 1 nPoints).mapM (fun (ptIdx : ℤ) =>
    ptInterp ((ptIdx : ℝ) * pyLast distList / (nPoints : ℝ)))

/-- `calculate_adaptive_segments`: adaptive arc segment count with a floor
and a hard ceiling of 200; degenerate inputs return the floor. -/
def calculate_adaptive_segments (radius arc_angle max_deviation_mm : ℝ)
    (min_segments : ℤ) : ℤ :=
  if radius ≤ 0 ∨ arc_angle ≤ 0 then min_segments
  else
    let max_dev := if 100000 < radius then max_deviation_mm * 1000000
                   else max_deviation_mm * 10000
    let max_dev := min max_dev (radius * 0.5)
    if radius ≤ max_dev ∨ max_dev ≤ 0 then min_segments
    else
      let cos_val := max (-1) (min 1 (1 - max_dev / radius))
      let angle_per_segment := 2 * Real.arccos cos_val
      if angle_per_segment ≤ 0 then min_segments
      else
        let segments : ℤ := ⌈arc_angle / angle_per_segment⌉
        max min_segments (min segments 200)

/-- Occurrence count of a vertex in a list (`list.count(v)` in Python). -/
def countOcc (v : PointR) : List PointR → ℕ
  | [] => 0
  | u :: t => (if u = v then 1 else 0) + countOcc v t

/-- One step of `getLeafVertices`: examine `path[idx]`; if it occurs exactly
once among all vertices it is a leaf, and the slope from its neighbour
`path[nIdx]` is recorded. -/
def leafOfIdx (allV : List PointR) (path : PathR) (idx nIdx : ℤ) :
    Except PyErr (List PointR × List ℝ) := do
  let v ← pyGet path idx
  if countOcc v allV = 1 then do
    let nb ← pyGet path nIdx
    pure ([v], [getLineSlope nb v])
  else
    pure ([], [])

/-- Loop of `getLeafVertices` over the path list: for each path the vertex
indices `0` (neighbour `1`) and `-1` (neighbour `-2`) are examined. -/
def leafGo (allV : List PointR) : List PathR → Except PyErr (List PointR × List ℝ)
  | [] => .ok ([], [])
  | p :: rest => do
      let a ← leafOfIdx allV p 0 1
      let b ← leafOfIdx allV p (-1) (-2)
      let c ← leafGo allV rest
      pure (a.1 ++ b.1 ++ c.1, a.2 ++ b.2 ++ c.2)

/-- `getLeafVertices(pathList)`: endpoints occurring exactly once in the whole
path list, with the slope of the line leading to them. -/
def getLeafVertices (pathList : List PathR) : Except PyErr (List PointR × List ℝ) :=
  leafGo (pathList.flatMap (fun p => p)) pathList

/-- `isPointOnLine(point, [a, b])`: bounding-box test in both coordinates plus
a zero cross product. -/
def isPointOnLine (point a b : PointR) : Prop :=
  ((a.1 ≤ point.1 ∧ point.1 ≤ b.1) ∨ (b.1 ≤ point.1 ∧ point.1 ≤ a.1)) ∧
  ((a.2 ≤ point.2 ∧ point.2 ≤ b.2) ∨ (b.2 ≤ point.2 ∧ point.2 ≤ a.2)) ∧
  (b.2 - point.2) * (a.1 - point.1) - (b.1 - point.1) * (a.2 - point.2) = 0

/-- `getPathsThroughPoints(path, pointList)`: for every (cyclic) polygon edge
`(i, (i+1) % n)`, record the index pair when some point of `pointList` lies on
that edge. -/
def getPathsThroughPoints (path : PathR) (pointList : List PointR) :
    List (ℤ × ℤ) :=
  (List.range path.length).filterMap (fun i =>
    if pointList.any (fun pt =>
        decide (isPointOnLine pt (pyG path i) (pyG path ((i + 1) % path.length)))) then
      some ((i : ℤ), (((i + 1) % path.length : ℕ) : ℤ))
    else
      none)

/-- Python `path[i % len(path)]`; on an empty list the modulus raises. -/
def pyModGet (l : PathR) (i : ℤ) : Except PyErr PointR :=
  if h : l.length = 0 then .error .zeroDivision
  else
    .ok (l.get ⟨(i % (l.length : ℤ)).toNat, by
      have hpos : 0 < (l.length : ℤ) := by omega
      have h1 : 0 ≤ i % (l.length : ℤ) := Int.emod_nonneg i (by omega)
      have h2 : i % (l.length : ℤ) < (l.length : ℤ) := Int.emod_lt_of_pos i hpos
      omega⟩)

/-- `getSubPath(path, pathSpec)`: vertices `path[i % n]` for
`i in range(spec0, spec1 + 1)`, where a wrapped spec (`spec1 < spec0`) first
adds the list modulus to `spec1`. -/
def getSubPath (path : PathR) (spec : ℤ × ℤ) : Except PyErr PathR :=
  let s2 := if spec.2 < spec.1 then spec.2 + path.length else spec.2
  (intRange spec.1 (s2 + 1)).mapM (pyModGet path)

/-- `getSubPaths(path, pathSpecList)`: sub-paths of all specs whose endpoints
differ. -/
def getSubPaths (path : PathR) (pathSpecList : List (ℤ × ℤ)) :
    Except PyErr (List PathR) :=
  (pathSpecList.filter (fun s => decide (s.1 ≠ s.2))).mapM (getSubPath path)

/-- `splitPathByPoints(path, splitList)`: consecutive pairs of the split
indices become sub-path specs. -/
def splitPathByPoints (path : PathR) (splitList : List ℤ) :
    Except PyErr (List PathR) :=
  getSubPaths path (splitList.zip splitList.tail)

/-- The spec list built by `splitPathByPaths`: from the end of each touching
edge to the start of the (cyclically) next one. -/
def buttSpecs (splitList : List (ℤ × ℤ)) : List (ℤ × ℤ) :=
  (List.finRange splitList.length).map (fun i =>
    ((splitList.get i).2,
     (splitList.get ⟨(i.val + 1) % splitList.length,
        Nat.mod_lt _ (Nat.lt_of_le_of_lt (Nat.zero_le _) i.isLt)⟩).1))

/-- `splitPathByPaths(path, splitList)`: split a closed polygon around the
given touching edges. -/
def splitPathByPaths (path : PathR) (splitList : List (ℤ × ℤ)) :
    Except PyErr (List PathR) :=
  getSubPaths path (buttSpecs splitList)

/-- Deviation-from-straight angle at vertex `idx` of a path:
`abs(prevSlope - nextSlope) - pi`, as computed by both `getPathVertices`
and `filterSharpJunctions` (indices are in range at every use site). -/
def devAngle (path : PathR) (idx : ℕ) : ℝ :=
  |getLineSlope (pyG path (idx + 1)) (pyG path idx) -
    getLineSlope (pyG path (idx - 1)) (pyG path idx)| - Real.pi

/-- `getPathVertices(path, angleTolerance)`: interior vertices whose
deviation angle exceeds the tolerance (given in degrees). -/
def getPathVertices (path : PathR) (angleTolerance : ℝ) : List ℕ :=
  ((List.range (path.length - 2)).map (fun k => k + 1)).filter
    (fun idx => decide (angleTolerance * Real.pi / 180 < |devAngle path idx|))

/-- `filterSharpJunctions(path, vertexIndices)`: with fewer than two planned
indices the list is returned unchanged; otherwise an index survives when it is
a path endpoint or its deviation angle is below the 85-degree sharp-junction
threshold. -/
def filterSharpJunctions (path : PathR) (vertexIndices : List ℕ) : List ℕ :=
  if vertexIndices.length < 2 then vertexIndices
  else
    vertexIndices.filter (fun idx =>
      decide ((idx = 0 ∨ path.length - 1 ≤ idx) ∨
        |devAngle path idx| < 85 * Real.pi / 180))

/-- The fixed-point index list of `generateViaFence` for one fence path:
`[0] + filterSharpJunctions(path, getPathVertices(path, 20)) + [-1]`. -/
def fixPointIdxList (fencePath : PathR) : List ℤ :=
  0 :: ((filterSharpJunctions fencePath (getPathVertices fencePath 20)).map
    (fun n => (n : ℤ))) ++ [-1]

/-- `transformVertices(vertexList, offset, angle)`: rotate, translate and
round every vertex. -/
def transformVertices (vertexList : PathR) (offset : PointR) (angle : ℝ) : PathR :=
  vertexList.map (fun v =>
    (((pyRound (offset.1 + Real.cos angle * v.1 - Real.sin angle * v.2)) : ℝ),
     ((pyRound (offset.2 + Real.sin angle * v.1 + Real.cos angle * v.2)) : ℝ)))

/-- The external `pyclipper` operations, abstracted as a capability record
exactly as the source treats the library. -/
structure ClipperEnv where
  expandPathsToPolygons : List PathR → ℝ → List PathR
  clipPolygonWithPolygons : PathR → List PathR → List PathR
  unionPolygons : List PathR → List PathR
  isPointInPolygon : PointR → PathR → Bool

/-- `trimFlushPolygonAtVertices`: stamp a heptagonal trim polygon at every
leaf vertex, union the stamps, and clip them out of the polygon. -/
def trimFlushPolygonAtVertices (env : ClipperEnv) (path : PathR)
    (vertexList : List PointR) (vertexSlopes : List ℝ) (radius : ℝ) : List PathR :=
  let c : ℝ := 0.414
  let trimPoly : PathR :=
    [(0, -radius), (0, 0), (0, radius), (-c * radius, radius),
     (-radius, c * radius), (-radius, -c * radius), (-c * radius, -radius)]
  let trimPolys := (vertexList.zip vertexSlopes).map
    (fun vs => transformVertices trimPoly vs.1 vs.2)
  let trimPolys := env.unionPolygons trimPolys
  env.clipPolygonWithPolygons path trimPolys

/-- `getPathsInsidePolygon(pathList, polygon)`: paths all of whose vertices
lie inside the polygon. -/
def getPathsInsidePolygon (env : ClipperEnv) (pathList : List PathR)
    (polygon : PathR) : List PathR :=
  pathList.filter (fun path => path.all (fun v => env.isPointInPolygon v polygon))

/-- The zero-length-track filter at the top of `generateViaFence`:
`[path for path in pathList if getLineLength(path) > 0]`.  `getLineLength`
reads only the first two vertices, and raises on shorter paths. -/
def removeZeroLengthTracks : List PathR → Except PyErr (List PathR)
  | [] => .ok []
  | p :: rest => do
      let len ← getLineLength p
      let tail ← removeZeroLengthTracks rest
      pure (if 0 < len then p :: tail else tail)

/-- Via placement on one open fence path: emit the fixed points, then
distribute interior candidates on each sub-path between consecutive fixed
points. -/
def processFencePath (fencePath : PathR) (viaPitch : ℝ) :
    Except PyErr (List PointR) := do
  let fixIdx := fixPointIdxList fencePath
  let fixPts ← fixIdx.mapM (pyGet fencePath)
  let subPaths ← splitPathByPoints fencePath fixIdx
  let interior ← subPaths.mapM (fun sp => distributeAlongPath sp viaPitch)
  pure (fixPts ++ interior.flatten)

/-- The body of `generateViaFence`'s loop for one offset polygon: containment
filter, leaf vertices, flush trim (taking element `[0]` of the clip result),
butt-line search, polygon split, and via placement on every fence path. -/
def processOffsetPolygon (env : ClipperEnv) (pathList : List PathR)
    (viaOffset viaPitch : ℝ) (offsetPoly : PathR) : Except PyErr (List PointR) := do
  let localPathList := getPathsInsidePolygon env pathList offsetPoly
  if localPathList.length = 0 then pure [] else do
  let lv ← getLeafVertices localPathList
  let trimmed := trimFlushPolygonAtVertices env offsetPoly lv.1 lv.2 (1.1 * viaOffset)
  let offsetPoly2 ← (match trimmed with
    | [] => Except.error PyErr.indexError
    | T :: _ => Except.ok T)
  let buttLineIdxList := getPathsThroughPoints offsetPoly2 lv.1
  let fencePaths ← splitPathByPaths offsetPoly2 buttLineIdxList
  let contributions ← fencePaths.mapM (fun fp => processFencePath fp viaPitch)
  pure contributions.flatten

/-- `generateViaFence(pathList, viaOffset, viaPitch)`: drop zero-length
tracks, expand to offset polygons, and process each polygon. -/
def generateViaFence (env : ClipperEnv) (pathList : List PathR)
    (viaOffset viaPitch : ℝ) : Except PyErr (List PointR) := do
  let pathList2 ← removeZeroLengthTracks pathList
  let polys := env.expandPathsToPolygons pathList2 viaOffset
  let parts ← polys.mapM (processOffsetPolygon env pathList2 viaOffset viaPitch)
  pure parts.flatten

/-- `generateViaFenceMultiRow`: for up to one row, plain generation; otherwise
one plain generation per row at offset `viaOffset + rowIdx * rowSpacing`.
The source's odd-row "brick pattern" branch computes `half_pitch` and then
reassigns `row_vias` to itself, leaving odd rows unshifted; the `if` below
mirrors that no-op branch. -/
def generateViaFenceMultiRow (env : ClipperEnv) (pathList : List PathR)
    (viaOffset viaPitch : ℝ) (numRows : ℤ) (rowSpacing : Option ℝ) :
    Except PyErr (List PointR) :=
  if numRows ≤ 1 then generateViaFence env pathList viaOffset viaPitch
  else
    let spacing : ℝ := match rowSpacing with
      | some s => s
      | none => ((pyInt (viaPitch * 1.5) : ℤ) : ℝ)
    do
      let rows ← (List.range numRows.toNat).mapM (fun rowIdx => do
        let rowVias ← generateViaFence env pathList
          (viaOffset + (rowIdx : ℝ) * spacing) viaPitch
        pure (if rowIdx % 2 = 1 then rowVias else rowVias))
      pure rows.flatten

/-! ## Embedding of `viafence_action.py` geometry helpers -/

/-- `distance(p1, p2)`: `math.hypot(p1.y - p2.y, p1.x - p2.x)`. -/
def distance (p1 p2 : PointR) : ℝ :=
  Real.sqrt ((p1.2 - p2.2) ^ 2 + (p1.1 - p2.1) ^ 2)

/-- A board track: start, end, copper width. -/
structure TrackR where
  s : PointR
  e : PointR
  width : ℝ

/-- A board pad: center position and bounding-box size. -/
structure PadR where
  pos : PointR
  size : PointR

/-- An existing board via: center position and diameter. -/
structure ViaR where
  pos : PointR
  width : ℝ

/-- `point_segment_distance(point, start, end)`: distance from a point to a
segment via clamped projection; a degenerate segment falls back to the
point-to-point distance. -/
def point_segment_distance (point s e : PointR) : ℝ :=
  let dx := e.1 - s.1
  let dy := e.2 - s.2
  if dx = 0 ∧ dy = 0 then distance point s
  else
    let t := ((point.1 - s.1) * dx + (point.2 - s.2) * dy) / (dx * dx + dy * dy)
    let t := max 0 (min 1 t)
    Real.sqrt ((point.1 - (s.1 + t * dx)) ^ 2 + (point.2 - (s.2 + t * dy)) ^ 2)

/-- The `wxPoint(int(v[0]), int(v[1]))` truncation applied to via candidates
before the overlap tests. -/
def intPt (v : PointR) : PointR := ((pyInt v.1 : ℤ), (pyInt v.2 : ℤ))

/-- `via_track_overlaps`: center-to-segment distance below
`trackHalfWidth + viaRadius + clearance + 10% via diameter`. -/
def via_track_overlaps (via_pos : PointR) (via_diam : ℝ) (track : TrackR)
    (clearance : ℝ) : Prop :=
  point_segment_distance (intPt via_pos) track.s track.e <
    track.width / 2 + via_diam / 2 + clearance + via_diam * 0.1

/-- `via_pad_overlaps`: center distance below
`padHalfDiagonal + viaRadius + clearance + 5% via diameter`. -/
def via_pad_overlaps (via_pos : PointR) (via_diam : ℝ) (pad : PadR)
    (clearance : ℝ) : Prop :=
  distance (intPt via_pos) pad.pos <
    Real.sqrt ((pad.size.1 / 2) ^ 2 + (pad.size.2 / 2) ^ 2) +
      via_diam / 2 + clearance + via_diam * 0.05

/-- `via_via_overlaps`: center distance below the sum of the two radii plus
`clearance + 5% new via diameter`. -/
def via_via_overlaps (via_pos : PointR) (new_via_diam : ℝ) (existing_via : ViaR)
    (clearance : ℝ) : Prop :=
  distance (intPt via_pos) existing_via.pos <
    new_via_diam / 2 + existing_via.width / 2 + clearance + new_via_diam * 0.05

/-- Truncated-integer key of a candidate, `(int(v[0]), int(v[1]))`. -/
def keyOf (v : PointR) : ℤ × ℤ := (pyInt v.1, pyInt v.2)

/-- Accumulator loop of the `seen`-set deduplication in `ViaFenceAction.Run`:
keep a candidate when its truncated-integer key was not seen before. -/
def uniqAux (seen : List (ℤ × ℤ)) : List PointR → List PointR
  | [] => []
  | v :: rest =>
      if keyOf v ∈ seen then uniqAux seen rest
      else v :: uniqAux (keyOf v :: seen) rest

/-- The exact-key deduplication stage of `ViaFenceAction.Run` (lines using
`seen`/`uniq`). -/
def uniqByIntKey (l : List PointR) : List PointR := uniqAux [] l

/-- Inner loop of `dedupe_points`: keep a candidate when it is farther than
`tol` (on truncated coordinates) from every previously kept candidate. -/
def dedupeGo (kept : List PointR) (tol : ℝ) : List PointR → List PointR
  | [] => []
  | v :: rest =>
      if ∃ u ∈ kept, distance (intPt v) (intPt u) ≤ tol then
        dedupeGo kept tol rest
      else
        v :: dedupeGo (v :: kept) tol rest

/-- `dedupe_points(points, tol)`. -/
def dedupe_points (points : List PointR) (tol : ℝ) : List PointR :=
  dedupeGo [] tol points

/-- The candidate pre-filter of `ViaFenceAction.Run`: exact-key
deduplication followed by `dedupe_points` with tolerance
`int(viaSize * 1.05)`; its output is what reaches the clearance filter. -/
def preFilterPipeline (combined : List PointR) (viaSize : ℝ) : List PointR :=
  dedupe_points (uniqByIntKey combined) ((pyInt (viaSize * 1.05) : ℤ) : ℝ)

/-- A trivial clipper environment used to exercise the engine at concrete
inputs: no offset polygons, identity union, clipping returns the subject
polygon, and every point counts as inside. -/
def envTriv : ClipperEnv where
  expandPathsToPolygons := fun _ _ => []
  clipPolygonWithPolygons := fun p _ => [p]
  unionPolygons := fun l => l
  isPointInPolygon := fun _ _ => true

/-! ## Helper lemmas -/

lemma filter_singleton_pos {α : Type} {p : α → Bool} {a : α} (h : p a = true) :
    List.filter p [a] = [a] := by
  simp [List.filter, h]

lemma atan2_one_zero : atan2 1 0 = Real.pi / 2 := by
  unfold atan2
  rw [if_neg (by norm_num), if_neg (by norm_num), if_pos (by norm_num)]

lemma atan2_zero_negone : atan2 0 (-1) = Real.pi := by
  unfold atan2
  rw [if_neg (by norm_num), if_pos (by norm_num), if_pos (by norm_num)]
  norm_num [Real.arctan_zero]

lemma atan2_zero_one : atan2 0 1 = 0 := by
  unfold atan2
  rw [if_pos (by norm_num)]
  norm_num [Real.arctan_zero]

lemma pyLast_cons_cons (a b : ℝ) (t : List ℝ) :
    pyLast (a :: b :: t) = pyLast (b :: t) := by
  unfold pyLast
  rw [List.getLastD_eq_getLast?, List.getLastD_eq_getLast?, List.getLast?_cons_cons]

lemma getLastD_congr {α : Type} (l : List α) (d1 d2 : α) (h : l ≠ []) :
    l.getLastD d1 = l.getLastD d2 := by
  rw [List.getLastD_eq_getLast?, List.getLastD_eq_getLast?,
    List.getLast?_eq_getLast l h]
  rfl

lemma le_pyLast_of_chain : ∀ l : List ℝ, List.Chain' (· < ·) l →
    ∀ x ∈ l, x ≤ pyLast l := by
  intro l
  induction l with
  | nil => intro _ x hx; simp at hx
  | cons a t ih =>
      intro hc x hx
      cases t with
      | nil =>
          rcases List.mem_singleton.1 hx with rfl
          exact le_refl _
      | cons b t2 =>
          rw [pyLast_cons_cons]
          have hcc := List.chain'_cons.1 hc
          rcases List.mem_cons.1 hx with rfl | hx2
          · exact le_trans (le_of_lt hcc.1) (ih hcc.2 b (List.mem_cons_self _ _))
          · exact ih hcc.2 x hx2

lemma headD_le_of_chain : ∀ l : List ℝ, List.Chain' (· < ·) l →
    ∀ x ∈ l, l.headD 0 ≤ x := by
  intro l
  induction l with
  | nil => intro _ x hx; simp at hx
  | cons a t ih =>
      intro hc x hx
      rcases List.mem_cons.1 hx with rfl | hx2
      · exact le_refl _
      · cases t with
        | nil => simp at hx2
        | cons b t2 =>
            have hcc := List.chain'_cons.1 hc
            exact le_trans (le_of_lt hcc.1) (ih hcc.2 x hx2)

lemma scanl_head_mem (b : ℝ) : ∀ l : List ℝ, b ∈ List.scanl (· + ·) b l := by
  intro l
  cases l with
  | nil => rw [List.scanl_nil]; exact List.mem_singleton_self _
  | cons x t => rw [List.scanl_cons]; exact List.mem_cons_self _ _

lemma scanl_head (b : ℝ) (l : List ℝ) :
    ∃ t, List.scanl (· + ·) b l = b :: t := by
  cases l with
  | nil => exact ⟨[], List.scanl_nil ..⟩
  | cons x t => exact ⟨_, List.scanl_cons ..⟩

lemma chain_scanl_pos : ∀ (l : List ℝ) (a : ℝ), (∀ x ∈ l, 0 < x) →
    List.Chain' (· < ·) (List.scanl (· + ·) a l) := by
  intro l
  induction l with
  | nil => intro a _; rw [List.scanl_nil]; simp
  | cons x t ih =>
      intro a h
      rw [List.scanl_cons]
      obtain ⟨tl, htl⟩ := scanl_head (a + x) t
      rw [htl]
      refine List.chain'_cons.2 ⟨?_, ?_⟩
      · have := h x (List.mem_cons_self _ _)
        linarith
      · rw [← htl]
        exact ih (a + x) (fun z hz => h z (List.mem_cons_of_mem _ hz))

lemma segLengths_length (path : PathR) :
    (segLengths path).length = path.length - 1 := by
  simp [segLengths, List.length_zip]

lemma getPathCumDist_chain (path : PathR)
    (h : ∀ s ∈ segLengths path, 0 < s) :
    List.Chain' (· < ·) (getPathCumDist path) :=
  chain_scanl_pos _ 0 h

lemma getPathCumDist_length (path : PathR) :
    (getPathCumDist path).length = (segLengths path).length + 1 := by
  simp [getPathCumDist, List.length_scanl]

lemma getPathCumDist_headD (path : PathR) :
    (getPathCumDist path).headD 0 = 0 := by
  unfold getPathCumDist
  cases segLengths path with
  | nil => rw [List.scanl_nil]; rfl
  | cons s rest => rw [List.scanl_cons]; rfl

lemma totalLen_pos (path : PathR) (h2 : 2 ≤ path.length)
    (hseg : ∀ s ∈ segLengths path, 0 < s) : 0 < totalLen path := by
  have hlen : 1 ≤ (segLengths path).length := by
    rw [segLengths_length]
    omega
  cases hs0 : segLengths path with
  | nil => rw [hs0] at hlen; simp at hlen
  | cons s rest =>
      have hs : 0 < s := hseg s (by rw [hs0]; exact List.mem_cons_self _ _)
      have hchain : List.Chain' (· < ·) (getPathCumDist path) :=
        getPathCumDist_chain path hseg
      have hmem : (0 + s) ∈ getPathCumDist path := by
        unfold getPathCumDist
        rw [hs0, List.scanl_cons]
        exact List.mem_cons_of_mem _ (scanl_head_mem _ _)
      have := le_pyLast_of_chain _ hchain _ hmem
      unfold totalLen
      linarith

lemma zip_tail_lt : ∀ xs : List ℝ, List.Chain' (· < ·) xs →
    ∀ a ∈ xs.zip xs.tail, a.1 < a.2 := by
  intro xs
  induction xs with
  | nil => intro _ a ha; simp at ha
  | cons x t ih =>
      intro hc a ha
      cases t with
      | nil => simp at ha
      | cons y t2 =>
          rw [show (x :: y :: t2).tail = y :: t2 from rfl, List.zip_cons_cons] at ha
          rcases List.mem_cons.1 ha with rfl | ha2
          · exact (List.chain'_cons.1 hc).1
          · exact ih (List.chain'_cons.1 hc).2 a ha2

lemma mkLin_ok (xs ys : List ℝ) (hc : List.Chain' (· < ·) xs) :
    mkLinearInterpolator xs ys = .ok (linCall xs ys) := by
  unfold mkLinearInterpolator
  rw [if_neg ?_]
  simp only [List.any_eq_true, decide_eq_true_eq, not_exists]
  rintro a ⟨ha, h0⟩
  have := zip_tail_lt xs hc a ha
  linarith

lemma slopesOf_length (xs ys : List ℝ) (h : ys.length = xs.length) :
    (slopesOf xs ys).length = xs.length - 1 := by
  simp [slopesOf, List.length_zipWith, List.length_zip, h]

lemma bisect_all (l : List ℝ) (d : ℝ) (h : ∀ x ∈ l, x < d) :
    bisectLeft l d = l.length := by
  unfold bisectLeft
  rw [List.countP_eq_length]
  exact fun a ha => decide_eq_true (h a ha)

lemma bisect_zero (l : List ℝ) (d : ℝ) (h : ∀ x ∈ l, ¬ x < d) :
    bisectLeft l d = 0 := by
  unfold bisectLeft
  rw [List.countP_eq_zero]
  intro a ha
  simp only [decide_eq_true_eq]
  exact h a ha

lemma bisect_pos (l : List ℝ) (d x : ℝ) (hx : x ∈ l) (h : x < d) :
    0 < bisectLeft l d := by
  unfold bisectLeft
  rw [List.countP_pos_iff]
  exact ⟨x, hx, decide_eq_true h⟩

lemma bisect_lt_length (l : List ℝ) (d x : ℝ) (hx : x ∈ l) (h : ¬ x < d) :
    bisectLeft l d < l.length := by
  unfold bisectLeft
  rcases lt_or_eq_of_le (List.countP_le_length _) with hlt | heq
  · exact hlt
  · exfalso
    have := (List.countP_eq_length.1 heq) x hx
    rw [decide_eq_true_eq] at this
    exact h this

lemma bisect_last : ∀ l : List ℝ, List.Chain' (· < ·) l → l ≠ [] →
    bisectLeft l (pyLast l) = l.length - 1 := by
  intro l
  induction l with
  | nil => intro _ h; exact absurd rfl h
  | cons a t ih =>
      intro hc _
      cases t with
      | nil =>
          show bisectLeft [a] (pyLast [a]) = 0
          exact bisect_zero _ _ (by
            intro x hx
            rcases List.mem_singleton.1 hx with rfl
            exact lt_irrefl x)
      | cons b t2 =>
          rw [pyLast_cons_cons]
          have hcc := List.chain'_cons.1 hc
          have ha : a < pyLast (b :: t2) :=
            lt_of_lt_of_le hcc.1
              (le_pyLast_of_chain _ hcc.2 b (List.mem_cons_self _ _))
          have hih := ih hcc.2 (by simp)
          unfold bisectLeft at hih ⊢
          rw [List.countP_cons, decide_eq_true ha]
          simp only [if_pos, List.length_cons] at hih ⊢
          omega

lemma pyGet_natCast_ok {α : Type} (l : List α) (n : ℕ) (h : n < l.length) :
    pyGet l (n : ℤ) = .ok (l.get ⟨n, h⟩) := by
  simp only [pyGet, if_neg (show ¬((n : ℤ) < 0) by omega)]
  rw [dif_pos ⟨by omega, by exact_mod_cast h⟩]
  rfl

lemma pyGet_natCast_err {α : Type} (l : List α) (n : ℕ) (h : l.length ≤ n) :
    pyGet l (n : ℤ) = .error .indexError := by
  simp only [pyGet, if_neg (show ¬((n : ℤ) < 0) by omega)]
  rw [dif_neg (by rintro ⟨h1, h2⟩; omega)]

lemma pyGet_neg_one {α : Type} (l : List α) (h : 0 < l.length) :
    pyGet l (-1) = .ok (l.get ⟨l.length - 1, by omega⟩) := by
  simp only [pyGet, if_pos (show (-1 : ℤ) < 0 by norm_num)]
  rw [dif_pos ⟨by omega, by omega⟩]
  have h2 : ((-1 : ℤ) + (l.length : ℤ)).toNat = l.length - 1 := by omega
  simp only [h2]

lemma mapM_ok_of_forall {α β : Type} (f : α → Except PyErr β) :
    ∀ l : List α, (∀ a ∈ l, ∃ b, f a = .ok b) →
    ∃ out, l.mapM f = .ok out ∧ out.length = l.length := by
  intro l
  induction l with
  | nil => intro _; exact ⟨[], rfl, rfl⟩
  | cons a t ih =>
      intro h
      obtain ⟨b, hb⟩ := h a (List.mem_cons_self _ _)
      obtain ⟨out, hout, hlen⟩ := ih (fun x hx => h x (List.mem_cons_of_mem _ hx))
      refine ⟨b :: out, ?_, by simp [hlen]⟩
      rw [List.mapM_cons, hb, hout]
      rfl

lemma slopesOf_get (xs ys : List ℝ) (k : ℕ)
    (hsl : k < (slopesOf xs ys).length)
    (hk1 : k + 1 < xs.length) (hkx : k < xs.length)
    (hky1 : k + 1 < ys.length) (hky : k < ys.length) :
    (slopesOf xs ys).get ⟨k, hsl⟩ =
      (ys.get ⟨k + 1, hky1⟩ - ys.get ⟨k, hky⟩) /
        (xs.get ⟨k + 1, hk1⟩ - xs.get ⟨k, hkx⟩) := by
  unfold slopesOf
  simp only [List.get_eq_getElem, List.getElem_zipWith, List.getElem_zip,
    List.getElem_tail]

lemma ok_bind {α β : Type} (a : α) (f : α → Except PyErr β) :
    (Except.ok a >>= f) = f a := rfl

lemma error_bind {α β : Type} (e : PyErr) (f : α → Except PyErr β) :
    ((Except.error e : Except PyErr α) >>= f) = .error e := rfl

lemma headD_mem (l : List ℝ) (h : l ≠ []) : l.headD 0 ∈ l := by
  cases l with
  | nil => exact absurd rfl h
  | cons a t => exact List.mem_cons_self _ _

lemma pyLast_mem (l : List ℝ) (h : l ≠ []) : pyLast l ∈ l := by
  unfold pyLast
  rw [List.getLastD_eq_getLast?, List.getLast?_eq_getLast l h]
  exact List.getLast_mem h

lemma pyLast_eq_get (l : List ℝ) (h : 0 < l.length) :
    pyLast l = l.get ⟨l.length - 1, by omega⟩ := by
  have hne : l ≠ [] := by intro he; subst he; simp at h
  unfold pyLast
  rw [List.getLastD_eq_getLast?, List.getLast?_eq_getLast l hne]
  rw [List.getLast_eq_get]
  rfl

lemma chain_adj_lt (xs : List ℝ) (hc : List.Chain' (· < ·) xs) (k : ℕ)
    (hk : k + 1 < xs.length) :
    xs.get ⟨k, by omega⟩ < xs.get ⟨k + 1, hk⟩ :=
  List.chain'_iff_get.1 hc k (by omega)

lemma linCall_at_last (xs ys : List ℝ) (hc : List.Chain' (· < ·) xs)
    (h2 : 2 ≤ xs.length) (hy : ys.length = xs.length) :
    linCall xs ys (pyLast xs) = .ok (ys.getLastD 0) := by
  have hne : xs ≠ [] := by intro he; subst he; simp at h2
  have hb : bisectLeft xs (pyLast xs) = xs.length - 1 := bisect_last xs hc hne
  have hsl : (slopesOf xs ys).length = xs.length - 1 := slopesOf_length xs ys hy
  unfold linCall
  rw [hb, show ((xs.length - 1 : ℕ) : ℤ) - 1 = ((xs.length - 2 : ℕ) : ℤ) by omega]
  rw [pyGet_natCast_ok ys (xs.length - 2) (by omega),
    pyGet_natCast_ok (slopesOf xs ys) (xs.length - 2) (by omega),
    pyGet_natCast_ok xs (xs.length - 2) (by omega)]
  show Except.ok _ = Except.ok _
  congr 1
  rw [slopesOf_get xs ys (xs.length - 2) (by omega) (by omega) (by omega)
    (by omega) (by omega)]
  rw [pyLast_eq_get xs (by omega)]
  have hadj : xs.get ⟨xs.length - 2, by omega⟩ <
      xs.get ⟨xs.length - 2 + 1, by omega⟩ := chain_adj_lt xs hc _ (by omega)
  have hne2 : xs.get ⟨xs.length - 2 + 1, by omega⟩ -
      xs.get ⟨xs.length - 2, by omega⟩ ≠ 0 := by
    intro h0
    linarith
  have hysl : ys.getLastD 0 = ys.get ⟨ys.length - 1, by omega⟩ :=
    pyLast_eq_get ys (by omega)
  rw [hysl]
  rw [show ys.get ⟨ys.length - 1, by omega⟩ =
      ys.get ⟨xs.length - 2 + 1, by omega⟩ from by
    congr 1
    exact Fin.ext (show ys.length - 1 = xs.length - 2 + 1 by omega)]
  rw [show xs.get ⟨xs.length - 1, by omega⟩ =
      xs.get ⟨xs.length - 2 + 1, by omega⟩ from by
    congr 1
    exact Fin.ext (show xs.length - 1 = xs.length - 2 + 1 by omega)]
  rw [div_mul_cancel₀ _ hne2]
  ring

lemma linCall_beyond (xs ys : List ℝ) (hc : List.Chain' (· < ·) xs)
    (h2 : 2 ≤ xs.length) (hy : ys.length = xs.length) (d : ℝ)
    (hd : pyLast xs < d) : linCall xs ys d = .error .indexError := by
  have hb : bisectLeft xs d = xs.length :=
    bisect_all _ _ (fun x hx => lt_of_le_of_lt (le_pyLast_of_chain xs hc x hx) hd)
  have hsl : (slopesOf xs ys).length = xs.length - 1 := slopesOf_length xs ys hy
  unfold linCall
  rw [hb, show ((xs.length : ℕ) : ℤ) - 1 = ((xs.length - 1 : ℕ) : ℤ) by omega]
  rw [pyGet_natCast_ok ys (xs.length - 1) (by omega),
    pyGet_natCast_err (slopesOf xs ys) (xs.length - 1) (by omega)]
  rfl

lemma linCall_isOk_below (xs ys : List ℝ) (hc : List.Chain' (· < ·) xs)
    (h2 : 2 ≤ xs.length) (hy : ys.length = xs.length) (d : ℝ)
    (hd : d ≤ xs.headD 0) : ∃ v, linCall xs ys d = .ok v := by
  have hb : bisectLeft xs d = 0 :=
    bisect_zero _ _ (fun x hx h => by
      have := headD_le_of_chain xs hc x hx
      linarith)
  have hsl : (slopesOf xs ys).length = xs.length - 1 := slopesOf_length xs ys hy
  unfold linCall
  rw [hb, show ((0 : ℕ) : ℤ) - 1 = (-1 : ℤ) by norm_num]
  rw [pyGet_neg_one ys (by omega), pyGet_neg_one (slopesOf xs ys) (by omega),
    pyGet_neg_one xs (by omega)]
  exact ⟨_, rfl⟩

lemma linCall_isOk_mid (xs ys : List ℝ) (hc : List.Chain' (· < ·) xs)
    (h2 : 2 ≤ xs.length) (hy : ys.length = xs.length) (d : ℝ)
    (hd1 : xs.headD 0 < d) (hd2 : d ≤ pyLast xs) :
    ∃ v, linCall xs ys d = .ok v := by
  have hne : xs ≠ [] := by intro he; subst he; simp at h2
  have hpos : 0 < bisectLeft xs d := bisect_pos xs d _ (headD_mem xs hne) hd1
  have hlt : bisectLeft xs d < xs.length :=
    bisect_lt_length xs d (pyLast xs) (pyLast_mem xs hne) (not_lt.2 hd2)
  have hsl : (slopesOf xs ys).length = xs.length - 1 := slopesOf_length xs ys hy
  unfold linCall
  rw [show ((bisectLeft xs d : ℕ) : ℤ) - 1 =
    ((bisectLeft xs d - 1 : ℕ) : ℤ) by omega]
  rw [pyGet_natCast_ok ys (bisectLeft xs d - 1) (by omega),
    pyGet_natCast_ok (slopesOf xs ys) (bisectLeft xs d - 1) (by omega),
    pyGet_natCast_ok xs (bisectLeft xs d - 1) (by omega)]
  exact ⟨_, rfl⟩

lemma mkPathInterpolator_ok (t : List ℝ) (path : PathR)
    (hc : List.Chain' (· < ·) t) :
    mkPathInterpolator t path = .ok (fun d => do
      let x ← linCall t (path.map Prod.fst) d
      let y ← linCall t (path.map Prod.snd) d
      pure (x, y)) := by
  unfold mkPathInterpolator
  simp only [mkLin_ok t (path.map Prod.fst) hc, mkLin_ok t (path.map Prod.snd) hc]
  rfl

lemma pathInterpAt_eq (t : List ℝ) (path : PathR)
    (hc : List.Chain' (· < ·) t) (d : ℝ) :
    pathInterpAt t path d =
      (do
        let x ← linCall t (path.map Prod.fst) d
        let y ← linCall t (path.map Prod.snd) d
        pure (x, y)) := by
  unfold pathInterpAt
  rw [mkPathInterpolator_ok t path hc]
  rfl

lemma pyLastP_cons_cons (a b : PointR) (t : List PointR) :
    pyLastP (a :: b :: t) = pyLastP (b :: t) := by
  unfold pyLastP
  rw [List.getLastD_eq_getLast?, List.getLastD_eq_getLast?, List.getLast?_cons_cons]

lemma getLastD_map_coords : ∀ path : PathR, path ≠ [] →
    (path.map Prod.fst).getLastD 0 = (pyLastP path).1 ∧
    (path.map Prod.snd).getLastD 0 = (pyLastP path).2 := by
  intro path
  induction path with
  | nil => intro h; exact absurd rfl h
  | cons a t ih =>
      intro _
      cases t with
      | nil => exact ⟨rfl, rfl⟩
      | cons b t2 =>
          obtain ⟨ih1, ih2⟩ := ih (by simp)
          constructor
          · rw [List.map_cons, List.getLastD_cons,
              getLastD_congr ((b :: t2).map Prod.fst) a.1 0 (by simp), ih1,
              pyLastP_cons_cons]
          · rw [List.map_cons, List.getLastD_cons,
              getLastD_congr ((b :: t2).map Prod.snd) a.2 0 (by simp), ih2,
              pyLastP_cons_cons]

lemma mem_intRange (a b k : ℤ) : k ∈ intRange a b ↔ a ≤ k ∧ k < b := by
  unfold intRange
  rw [List.mem_map]
  constructor
  · rintro ⟨j, hj, hk⟩
    rw [List.mem_range] at hj
    omega
  · rintro ⟨h1, h2⟩
    refine ⟨(k - a).toNat, List.mem_range.2 (by omega), ?_⟩
    omega

lemma length_intRange (a b : ℤ) : (intRange a b).length = (b - a).toNat := by
  unfold intRange
  rw [List.length_map, List.length_range]

lemma uniqAux_sublist (l : List PointR) : ∀ seen, (uniqAux seen l).Sublist l := by
  induction l with
  | nil => intro seen; simp [uniqAux]
  | cons v rest ih =>
      intro seen
      rw [uniqAux]
      split_ifs with h
      · exact (ih seen).cons v
      · exact (ih (keyOf v :: seen)).cons₂ v

lemma uniqAux_keys_nodup (l : List PointR) :
    ∀ seen, ((uniqAux seen l).map keyOf).Nodup ∧
      ∀ k ∈ (uniqAux seen l).map keyOf, k ∉ seen := by
  induction l with
  | nil => intro seen; simp [uniqAux]
  | cons v rest ih =>
      intro seen
      rw [uniqAux]
      split_ifs with h
      · exact ih seen
      · obtain ⟨hnd, hns⟩ := ih (keyOf v :: seen)
        constructor
        · simp only [List.map_cons, List.nodup_cons]
          exact ⟨fun hmem => (hns _ hmem) (List.mem_cons_self _ _), hnd⟩
        · intro k hk
          simp only [List.map_cons, List.mem_cons] at hk
          rcases hk with rfl | hk
          · exact h
          · exact fun hks => (hns k hk) (List.mem_cons_of_mem _ hks)

lemma uniqAux_covers (l : List PointR) : ∀ seen v, v ∈ l → keyOf v ∉ seen →
    ∃ u ∈ uniqAux seen l, keyOf u = keyOf v := by
  induction l with
  | nil => intro seen v hv; simp at hv
  | cons w rest ih =>
      intro seen v hv hns
      rw [uniqAux]
      rcases List.mem_cons.1 hv with rfl | hv
      · rw [if_neg hns]
        exact ⟨v, List.mem_cons_self _ _, rfl⟩
      · split_ifs with h
        · exact ih seen v hv hns
        · by_cases hk : keyOf v = keyOf w
          · exact ⟨w, List.mem_cons_self _ _, hk.symm⟩
          · obtain ⟨u, hu, hku⟩ := ih (keyOf w :: seen) v hv (by
              simp only [List.mem_cons]
              rintro (h1 | h2)
              exacts [hk h1, hns h2])
            exact ⟨u, List.mem_cons_of_mem _ hu, hku⟩

lemma uniqAux_first (l1 : List PointR) : ∀ (seen : List (ℤ × ℤ)) (v : PointR)
    (l2 : List PointR), keyOf v ∉ seen → (∀ u ∈ l1, keyOf u ≠ keyOf v) →
    v ∈ uniqAux seen (l1 ++ v :: l2) := by
  induction l1 with
  | nil =>
      intro seen v l2 hns _
      simp only [List.nil_append]
      rw [uniqAux, if_neg hns]
      exact List.mem_cons_self _ _
  | cons a t ih =>
      intro seen v l2 hns hne
      simp only [List.cons_append]
      rw [uniqAux]
      split_ifs with h
      · exact ih seen v l2 hns (fun u hu => hne u (List.mem_cons_of_mem _ hu))
      · refine List.mem_cons_of_mem _
          (ih _ v l2 ?_ (fun u hu => hne u (List.mem_cons_of_mem _ hu)))
        simp only [List.mem_cons]
        rintro (h1 | h2)
        · exact hne a (List.mem_cons_self _ _) h1.symm
        · exact hns h2

/-! ## Claims -/

/-- C8: for every radius, swept angle, and deviation bound, the adaptive arc
segment count stays at or above the configured floor, at or below the 200
ceiling (whenever the floor itself is at most 200), and degenerate inputs
(radius or angle nonpositive) return exactly the floor. -/
theorem adaptive_segments_clamped (radius arc_angle max_deviation_mm : ℝ)
    (mn : ℤ) :
    mn ≤ calculate_adaptive_segments radius arc_angle max_deviation_mm mn ∧
    (mn ≤ 200 → calculate_adaptive_segments radius arc_angle max_deviation_mm mn ≤ 200) ∧
    ((radius ≤ 0 ∨ arc_angle ≤ 0) →
      calculate_adaptive_segments radius arc_angle max_deviation_mm mn = mn) := by
  simp only [calculate_adaptive_segments]
  split_ifs
  all_goals
    first
      | exact ⟨le_refl _, fun h => h, fun _ => rfl⟩
      | exact ⟨le_max_left _ _,
          fun h200 => max_le h200 (min_le_right _ _),
          fun hc => absurd hc (by assumption)⟩

/-- Witness for C8 at a degenerate input: radius `-1` returns the floor 16,
which is within the ceiling. -/
theorem adaptive_segments_clamped_witness :
    ((-1 : ℝ) ≤ 0 ∨ (1 : ℝ) ≤ 0) ∧ (16 : ℤ) ≤ 200 ∧
    calculate_adaptive_segments (-1) 1 0.1 16 = 16 ∧
    calculate_adaptive_segments (-1) 1 0.1 16 ≤ 200 := by
  have h := adaptive_segments_clamped (-1) 1 0.1 16
  exact ⟨Or.inl (by norm_num), by norm_num,
    h.2.2 (Or.inl (by norm_num)), h.2.1 (by norm_num)⟩

/-- C7: each overlap predicate (track, pad, via) is monotonically
non-decreasing in the clearance parameter: overlap at clearance `c1` implies
overlap at every clearance `c2 ≥ c1`. -/
theorem clearance_monotone (p : PointR) (diam : ℝ) (t : TrackR) (pad : PadR)
    (v : ViaR) (c1 c2 : ℝ) (h : c1 ≤ c2) :
    (via_track_overlaps p diam t c1 → via_track_overlaps p diam t c2) ∧
    (via_pad_overlaps p diam pad c1 → via_pad_overlaps p diam pad c2) ∧
    (via_via_overlaps p diam v c1 → via_via_overlaps p diam v c2) := by
  unfold via_track_overlaps via_pad_overlaps via_via_overlaps
  exact ⟨fun h1 => by linarith, fun h1 => by linarith, fun h1 => by linarith⟩

/-- Witness for C7: concrete overlaps at clearance 1 remain overlaps at
clearance 2 for all three predicates. -/
theorem clearance_monotone_witness :
    (1 : ℝ) ≤ 2 ∧
    via_track_overlaps (0, 0) 2 ⟨(0, 0), (0, 0), 2⟩ 2 ∧
    via_pad_overlaps (0, 0) 2 ⟨(0, 0), (2, 2)⟩ 2 ∧
    via_via_overlaps (0, 0) 2 ⟨(3, 0), 2⟩ 2 := by
  have h := clearance_monotone (0, 0) 2 ⟨(0, 0), (0, 0), 2⟩ ⟨(0, 0), (2, 2)⟩
    ⟨(3, 0), 2⟩ 1 2 (by norm_num)
  have hint : intPt ((0 : ℝ), (0 : ℝ)) = (0, 0) := by
    unfold intPt pyInt
    norm_num
  have hd0 : distance ((0 : ℝ), (0 : ℝ)) ((0 : ℝ), (0 : ℝ)) = 0 := by
    unfold distance
    norm_num
  have hd3 : distance ((0 : ℝ), (0 : ℝ)) ((3 : ℝ), (0 : ℝ)) = 3 := by
    unfold distance
    rw [show ((0 : ℝ) - 0) ^ 2 + ((0 : ℝ) - 3) ^ 2 = 3 ^ 2 by ring]
    exact Real.sqrt_sq (by norm_num)
  have htr : via_track_overlaps ((0 : ℝ), (0 : ℝ)) 2 ⟨(0, 0), (0, 0), 2⟩ 1 := by
    unfold via_track_overlaps point_segment_distance
    rw [hint]
    dsimp only
    rw [if_pos (by norm_num), hd0]
    norm_num
  have hpad : via_pad_overlaps ((0 : ℝ), (0 : ℝ)) 2 ⟨(0, 0), (2, 2)⟩ 1 := by
    unfold via_pad_overlaps
    rw [hint]
    dsimp only
    rw [hd0]
    have := Real.sqrt_nonneg (((2 : ℝ) / 2) ^ 2 + ((2 : ℝ) / 2) ^ 2)
    norm_num
    linarith
  have hvv : via_via_overlaps ((0 : ℝ), (0 : ℝ)) 2 ⟨(3, 0), 2⟩ 1 := by
    unfold via_via_overlaps
    rw [hint]
    dsimp only
    rw [hd3]
    norm_num
  exact ⟨by norm_num, h.1 htr, h.2.1 hpad, h.2.2 hvv⟩

/-- C1: multi-row generation applies no half-pitch shift: with two rows, the
output is exactly the plain single-row generation at the base offset followed
by the plain single-row generation at the base offset plus the row spacing,
with the odd row's candidates unmodified. -/
theorem generateViaFenceMultiRow_no_half_pitch_shift (env : ClipperEnv)
    (pathList : List PathR) (off pitch spacing : ℝ) :
    generateViaFenceMultiRow env pathList off pitch 2 (some spacing) =
      (do
        let row0 ← generateViaFence env pathList off pitch
        let row1 ← generateViaFence env pathList (off + spacing) pitch
        pure (row0 ++ row1)) := by
  simp only [generateViaFenceMultiRow]
  rw [if_neg (by norm_num)]
  rw [show List.range (2 : ℤ).toNat = [0, 1] from rfl]
  simp only [List.mapM_cons, List.mapM_nil, Nat.cast_zero, zero_mul, add_zero,
    Nat.cast_one, one_mul, ite_self]
  cases h0 : generateViaFence env pathList off pitch with
  | error e => simp [List.mapM.loop, h0]
  | ok r0 =>
      cases h1 : generateViaFence env pathList (off + spacing) pitch with
      | error e => simp [List.mapM.loop, h0, h1]
      | ok r1 => simp [List.mapM.loop, h0, h1]

/-- C2: a fence path with a single interior bend whose deviation angle (90
degrees) exceeds the 85-degree sharp-junction threshold: the bend is detected,
but `filterSharpJunctions` returns it unchanged (its early return fires for
fewer than two indices), so the sharp bend is anchored in the fixed-point
list `[0, 1, -1]` instead of being excluded. -/
theorem sharp_bend_anchored :
    getPathVertices [((0 : ℝ), (0 : ℝ)), (1, 0), (1, 1)] 20 = [1] ∧
    85 * Real.pi / 180 < |devAngle [((0 : ℝ), (0 : ℝ)), (1, 0), (1, 1)] 1| ∧
    filterSharpJunctions [((0 : ℝ), (0 : ℝ)), (1, 0), (1, 1)]
      (getPathVertices [((0 : ℝ), (0 : ℝ)), (1, 0), (1, 1)] 20) = [1] ∧
    fixPointIdxList [((0 : ℝ), (0 : ℝ)), (1, 0), (1, 1)] = [0, 1, -1] := by
  have habs : |devAngle [((0 : ℝ), (0 : ℝ)), (1, 0), (1, 1)] 1| = Real.pi / 2 := by
    have hdev : devAngle [((0 : ℝ), (0 : ℝ)), (1, 0), (1, 1)] 1 = -(Real.pi / 2) := by
      unfold devAngle
      have e2 : pyG [((0 : ℝ), (0 : ℝ)), (1, 0), (1, 1)] 2 = (1, 1) := rfl
      have e1 : pyG [((0 : ℝ), (0 : ℝ)), (1, 0), (1, 1)] 1 = (1, 0) := rfl
      have e0 : pyG [((0 : ℝ), (0 : ℝ)), (1, 0), (1, 1)] 0 = (0, 0) := rfl
      rw [e2, e1, e0]
      unfold getLineSlope
      norm_num [atan2_one_zero, atan2_zero_negone]
      rw [show Real.pi / 2 - Real.pi = -(Real.pi / 2) by ring, abs_neg,
        abs_of_nonneg (le_of_lt (half_pos Real.pi_pos))]
      ring
    rw [hdev, abs_neg, abs_of_nonneg (le_of_lt (half_pos Real.pi_pos))]
  have hcond : (20 : ℝ) * Real.pi / 180 < |devAngle [((0 : ℝ), (0 : ℝ)), (1, 0), (1, 1)] 1| := by
    rw [habs]
    have := Real.pi_pos
    linarith
  have hpv : getPathVertices [((0 : ℝ), (0 : ℝ)), (1, 0), (1, 1)] 20 = [1] := by
    unfold getPathVertices
    exact filter_singleton_pos (decide_eq_true hcond)
  have hfs : filterSharpJunctions [((0 : ℝ), (0 : ℝ)), (1, 0), (1, 1)]
      (getPathVertices [((0 : ℝ), (0 : ℝ)), (1, 0), (1, 1)] 20) = [1] := by
    rw [hpv]
    rfl
  refine ⟨hpv, ?_, hfs, ?_⟩
  · rw [habs]
    have := Real.pi_pos
    linarith
  · unfold fixPointIdxList
    rw [hfs]
    simp

/-- C9 counterexample: the candidates `(0,0)` and `(3,0)` have distinct
truncated integer coordinates, yet with via size 10 the pre-filter pipeline
keeps only the first: the distance-based `dedupe_points` stage (tolerance
`int(1.05 * viaSize)`) removes the second before the clearance filter sees
it. -/
theorem dedupe_pipeline_cex :
    preFilterPipeline [((0 : ℝ), (0 : ℝ)), (3, 0)] 10 = [((0 : ℝ), (0 : ℝ))] ∧
    keyOf ((0 : ℝ), (0 : ℝ)) ≠ keyOf ((3 : ℝ), (0 : ℝ)) := by
  have hk0 : keyOf ((0 : ℝ), (0 : ℝ)) = (0, 0) := by
    unfold keyOf pyInt
    norm_num
  have hk3 : keyOf ((3 : ℝ), (0 : ℝ)) = (3, 0) := by
    unfold keyOf pyInt
    norm_num
  have hi0 : intPt ((0 : ℝ), (0 : ℝ)) = (0, 0) := by
    unfold intPt pyInt
    norm_num
  have hi3 : intPt ((3 : ℝ), (0 : ℝ)) = (3, 0) := by
    unfold intPt pyInt
    norm_num
  have hd3 : distance (intPt ((3 : ℝ), (0 : ℝ))) (intPt ((0 : ℝ), (0 : ℝ))) = 3 := by
    rw [hi3, hi0]
    unfold distance
    rw [show ((0 : ℝ) - 0) ^ 2 + ((3 : ℝ) - 0) ^ 2 = 3 ^ 2 by ring]
    exact Real.sqrt_sq (by norm_num)
  have hfloor : (⌊((10 : ℝ) * 1.05)⌋ : ℤ) = 10 := by
    rw [Int.floor_eq_iff]
    norm_num
  have htol : ((pyInt ((10 : ℝ) * 1.05) : ℤ) : ℝ) = 10 := by
    unfold pyInt
    rw [if_pos (by norm_num), hfloor]
    norm_num
  have huniq : uniqByIntKey [((0 : ℝ), (0 : ℝ)), (3, 0)] =
      [((0 : ℝ), (0 : ℝ)), (3, 0)] := by
    unfold uniqByIntKey
    rw [uniqAux, if_neg (by simp), uniqAux, if_neg (by
      rw [List.mem_singleton, hk3, hk0]
      decide), uniqAux]
  have hdd : dedupe_points [((0 : ℝ), (0 : ℝ)), (3, 0)] 10 =
      [((0 : ℝ), (0 : ℝ))] := by
    unfold dedupe_points
    rw [dedupeGo, if_neg (by simp), dedupeGo, if_pos ?_, dedupeGo]
    exact ⟨((0 : ℝ), (0 : ℝ)), List.mem_singleton_self _, by rw [hd3]; norm_num⟩
  refine ⟨?_, by rw [hk0, hk3]; decide⟩
  unfold preFilterPipeline
  rw [huniq, htol, hdd]

/-- C9 (amended): the exact-key deduplication stage keeps a sublist of the
candidates with pairwise distinct truncated-integer keys, covering every key
of the input, retaining the first candidate of each key; the list passed on
to the clearance filter is that stage's output further thinned by
`dedupe_points` with tolerance `int(1.05 * viaSize)`. -/
theorem dedupe_amended :
    (∀ l : List PointR, (uniqByIntKey l).Sublist l) ∧
    (∀ l : List PointR, ((uniqByIntKey l).map keyOf).Nodup) ∧
    (∀ (l : List PointR) (v : PointR), v ∈ l →
      ∃ u ∈ uniqByIntKey l, keyOf u = keyOf v) ∧
    (∀ (l1 l2 : List PointR) (v : PointR), (∀ u ∈ l1, keyOf u ≠ keyOf v) →
      v ∈ uniqByIntKey (l1 ++ v :: l2)) ∧
    (∀ (pts : List PointR) (sz : ℝ),
      preFilterPipeline pts sz =
        dedupe_points (uniqByIntKey pts) ((pyInt (sz * 1.05) : ℤ) : ℝ)) := by
  refine ⟨fun l => uniqAux_sublist l [], fun l => (uniqAux_keys_nodup l []).1,
    fun l v hv => uniqAux_covers l [] v hv (by simp),
    fun l1 l2 v hne => uniqAux_first l1 [] v l2 (by simp) hne,
    fun pts sz => rfl⟩

/-- Witness for C9 (amended) at concrete candidates. -/
theorem dedupe_amended_witness :
    ((0 : ℝ), (0 : ℝ)) ∈ [((0 : ℝ), (0 : ℝ))] ∧
    (∃ u ∈ uniqByIntKey [((0 : ℝ), (0 : ℝ))], keyOf u = keyOf ((0 : ℝ), (0 : ℝ))) ∧
    (∀ u ∈ ([] : List PointR), keyOf u ≠ keyOf ((0 : ℝ), (0 : ℝ))) ∧
    ((0 : ℝ), (0 : ℝ)) ∈ uniqByIntKey ([] ++ ((0 : ℝ), (0 : ℝ)) :: []) := by
  have h := dedupe_amended
  exact ⟨List.mem_singleton_self _,
    h.2.2.1 _ _ (List.mem_singleton_self _),
    by simp,
    h.2.2.2.1 [] [] _ (by simp)⟩

/-- C5 counterexample: a single-point path makes `generateViaFence` raise an
`IndexError` inside the zero-length filter (instead of being skipped), and a
path of positive total length 5 whose first two vertices coincide is dropped
by that filter (so the filter is not "exactly the zero-length paths"). -/
theorem malformed_input_cex :
    generateViaFence envTriv [[((0 : ℝ), (0 : ℝ))]] 1 1 = .error .indexError ∧
    removeZeroLengthTracks [[((0 : ℝ), (0 : ℝ)), (0, 0), (5, 0)]] = .ok [] ∧
    totalLen [((0 : ℝ), (0 : ℝ)), (0, 0), (5, 0)] = 5 := by
  have hl0 : lineLength ((0 : ℝ), (0 : ℝ)) ((0 : ℝ), (0 : ℝ)) = 0 := by
    unfold lineLength
    norm_num
  have hl5 : lineLength ((5 : ℝ), (0 : ℝ)) ((0 : ℝ), (0 : ℝ)) = 5 := by
    unfold lineLength
    rw [show ((5 : ℝ) - 0) ^ 2 + ((0 : ℝ) - 0) ^ 2 = 5 ^ 2 by ring]
    exact Real.sqrt_sq (by norm_num)
  refine ⟨rfl, ?_, ?_⟩
  · rw [removeZeroLengthTracks]
    show (getLineLength _ >>= _) = _
    rw [show getLineLength [((0 : ℝ), (0 : ℝ)), (0, 0), (5, 0)] =
      .ok (lineLength ((0 : ℝ), (0 : ℝ)) ((0 : ℝ), (0 : ℝ))) from rfl, hl0]
    show Except.ok (if (0 : ℝ) < 0 then _ else _) = _
    rw [if_neg (by norm_num)]
  · unfold totalLen getPathCumDist pyLast
    rw [show segLengths [((0 : ℝ), (0 : ℝ)), (0, 0), (5, 0)] =
      [lineLength ((0 : ℝ), (0 : ℝ)) ((0 : ℝ), (0 : ℝ)),
       lineLength ((5 : ℝ), (0 : ℝ)) ((0 : ℝ), (0 : ℝ))] from rfl, hl0, hl5]
    show List.getLastD [(0 : ℝ), 0 + 0, 0 + 0 + 5] 0 = 5
    norm_num

/-- C6 counterexample: with a non-positive pitch and offset (both `-1`),
`generateViaFence` runs to completion and returns a result instead of
rejecting the parameters up front with a configuration error. -/
theorem no_param_rejection_cex :
    generateViaFence envTriv [[((0 : ℝ), (0 : ℝ)), (1, 0)]] (-1) (-1) = .ok [] ∧
    (-1 : ℝ) ≤ 0 := by
  have hl1 : lineLength ((0 : ℝ), (0 : ℝ)) ((1 : ℝ), (0 : ℝ)) = 1 := by
    unfold lineLength
    norm_num
  refine ⟨?_, by norm_num⟩
  unfold generateViaFence
  have hrm : removeZeroLengthTracks [[((0 : ℝ), (0 : ℝ)), (1, 0)]] =
      .ok [[((0 : ℝ), (0 : ℝ)), (1, 0)]] := by
    rw [removeZeroLengthTracks]
    show (getLineLength _ >>= _) = _
    rw [show getLineLength [((0 : ℝ), (0 : ℝ)), (1, 0)] =
      .ok (lineLength ((0 : ℝ), (0 : ℝ)) ((1 : ℝ), (0 : ℝ))) from rfl, hl1]
    show Except.ok (if (0 : ℝ) < 1 then _ else _) = _
    rw [if_pos (by norm_num)]
  rw [hrm]
  rfl

lemma linCall_at_neg (xs ys : List ℝ) (d : ℝ) (hb : bisectLeft xs d = 0)
    (hx : 0 < xs.length) (hy : 0 < ys.length)
    (hs : 0 < (slopesOf xs ys).length) :
    linCall xs ys d = .ok (ys.get ⟨ys.length - 1, by omega⟩ +
      (slopesOf xs ys).get ⟨(slopesOf xs ys).length - 1, by omega⟩ *
        (d - xs.get ⟨xs.length - 1, by omega⟩)) := by
  unfold linCall
  rw [hb, show (((0 : ℕ) : ℤ) - 1) = (-1 : ℤ) by norm_num]
  rw [pyGet_neg_one ys hy, pyGet_neg_one (slopesOf xs ys) hs,
    pyGet_neg_one xs hx]
  rfl

/-- C3 counterexample: on the bent path `[(0,0),(1,0),(1,1)]` (cumulative
distances `[0,1,2]`), the interpolator at distance 0 does NOT return the
first vertex `(0,0)`: the index search wraps to Python index `-1` and
backward-extrapolates from the last segment, giving `(1,-1)`; and at
distance 3 (beyond the total length 2) it raises an `IndexError` instead of
clamping to the last vertex. -/
theorem interpolator_no_clamp_cex :
    getPathCumDist [((0 : ℝ), (0 : ℝ)), (1, 0), (1, 1)] = [0, 1, 2] ∧
    pathInterpAt [(0 : ℝ), 1, 2] [((0 : ℝ), (0 : ℝ)), (1, 0), (1, 1)] 0 =
      .ok (1, -1) ∧
    (((1 : ℝ), (-1 : ℝ)) : PointR) ≠ ((0 : ℝ), (0 : ℝ)) ∧
    pathInterpAt [(0 : ℝ), 1, 2] [((0 : ℝ), (0 : ℝ)), (1, 0), (1, 1)] 3 =
      .error .indexError := by
  have hc : List.Chain' (· < ·) [(0 : ℝ), 1, 2] :=
    List.chain'_cons.2 ⟨by norm_num,
      List.chain'_cons.2 ⟨by norm_num, List.chain'_singleton _⟩⟩
  have hs1 : lineLength ((1 : ℝ), (0 : ℝ)) ((0 : ℝ), (0 : ℝ)) = 1 := by
    unfold lineLength
    rw [show ((1 : ℝ) - 0) ^ 2 + ((0 : ℝ) - 0) ^ 2 = 1 by norm_num]
    exact Real.sqrt_one
  have hs2 : lineLength ((1 : ℝ), (1 : ℝ)) ((1 : ℝ), (0 : ℝ)) = 1 := by
    unfold lineLength
    rw [show ((1 : ℝ) - 1) ^ 2 + ((1 : ℝ) - 0) ^ 2 = 1 by norm_num]
    exact Real.sqrt_one
  have hcum : getPathCumDist [((0 : ℝ), (0 : ℝ)), (1, 0), (1, 1)] = [0, 1, 2] := by
    unfold getPathCumDist
    rw [show segLengths [((0 : ℝ), (0 : ℝ)), (1, 0), (1, 1)] =
      [lineLength ((1 : ℝ), (0 : ℝ)) ((0 : ℝ), (0 : ℝ)),
       lineLength ((1 : ℝ), (1 : ℝ)) ((1 : ℝ), (0 : ℝ))] from rfl]
    rw [hs1, hs2, List.scanl_cons, List.scanl_cons, List.scanl_nil]
    norm_num
  have hb0 : bisectLeft [(0 : ℝ), 1, 2] 0 = 0 := by
    refine bisect_zero _ _ ?_
    intro x hx
    simp only [List.mem_cons, List.not_mem_nil, or_false] at hx
    rcases hx with rfl | rfl | rfl <;> norm_num
  have hslx : (slopesOf [(0 : ℝ), 1, 2] [(0 : ℝ), 1, 1]).length = 2 := rfl
  have hsly : (slopesOf [(0 : ℝ), 1, 2] [(0 : ℝ), 0, 1]).length = 2 := rfl
  have hfst : linCall [(0 : ℝ), 1, 2] [(0 : ℝ), 1, 1] 0 = .ok 1 := by
    rw [linCall_at_neg _ _ _ hb0 (by norm_num) (by norm_num) (by rw [hslx]; norm_num)]
    congr 1
    show (1 : ℝ) + (((1 : ℝ) - 1) / (2 - 1)) * (0 - 2) = 1
    norm_num
  have hsnd : linCall [(0 : ℝ), 1, 2] [(0 : ℝ), 0, 1] 0 = .ok (-1) := by
    rw [linCall_at_neg _ _ _ hb0 (by norm_num) (by norm_num) (by rw [hsly]; norm_num)]
    congr 1
    show (1 : ℝ) + (((1 : ℝ) - 0) / (2 - 1)) * (0 - 2) = -1
    norm_num
  refine ⟨hcum, ?_, ?_, ?_⟩
  · rw [pathInterpAt_eq _ _ hc 0]
    rw [show List.map Prod.fst [((0 : ℝ), (0 : ℝ)), (1, 0), (1, 1)] =
      [(0 : ℝ), 1, 1] from rfl]
    rw [hfst]
    show linCall [(0 : ℝ), 1, 2]
      (List.map Prod.snd [((0 : ℝ), (0 : ℝ)), (1, 0), (1, 1)]) 0 >>= _ = _
    rw [show List.map Prod.snd [((0 : ℝ), (0 : ℝ)), (1, 0), (1, 1)] =
      [(0 : ℝ), 0, 1] from rfl]
    rw [hsnd]
    rfl
  · intro h
    rw [Prod.mk.injEq] at h
    exact absurd h.1 (by norm_num)
  · rw [pathInterpAt_eq _ _ hc 3]
    rw [show List.map Prod.fst [((0 : ℝ), (0 : ℝ)), (1, 0), (1, 1)] =
      [(0 : ℝ), 1, 1] from rfl]
    rw [linCall_beyond [(0 : ℝ), 1, 2] [(0 : ℝ), 1, 1] hc (by norm_num)
      (by norm_num) 3 (by rw [show pyLast [(0 : ℝ), 1, 2] = 2 from rfl]; norm_num)]
    rfl

/-- C3 (amended): over a strictly increasing cumulative-distance vector the
interpolator constructs, returns the last vertex at exactly the total length,
raises an `IndexError` at any distance beyond the total length (no upper
clamp), and at any distance at or below the start it returns a value computed
by backward extrapolation from the last segment (no lower clamp; in general
not the first vertex, see the counterexample). -/
theorem pathInterpolator_amended (t : List ℝ) (path : PathR)
    (hc : List.Chain' (· < ·) t) (h2 : 2 ≤ t.length)
    (hlen : path.length = t.length) :
    pathInterpAt t path (pyLast t) = .ok (pyLastP path) ∧
    (∀ d, pyLast t < d → pathInterpAt t path d = .error .indexError) ∧
    (∀ d, d ≤ t.headD 0 → ∃ pt, pathInterpAt t path d = .ok pt) := by
  have hx : (path.map Prod.fst).length = t.length := by simp [hlen]
  have hy2 : (path.map Prod.snd).length = t.length := by simp [hlen]
  have hpne : path ≠ [] := by
    intro he
    subst he
    simp at hlen
    omega
  obtain ⟨hmf, hms⟩ := getLastD_map_coords path hpne
  refine ⟨?_, ?_, ?_⟩
  · rw [pathInterpAt_eq t path hc]
    rw [linCall_at_last t _ hc h2 hx]
    show linCall t (path.map Prod.snd) (pyLast t) >>= _ = _
    rw [linCall_at_last t _ hc h2 hy2]
    show Except.ok ((path.map Prod.fst).getLastD 0, (path.map Prod.snd).getLastD 0) = _
    rw [hmf, hms]
  · intro d hd
    rw [pathInterpAt_eq t path hc]
    rw [linCall_beyond t _ hc h2 hx d hd]
    rfl
  · intro d hd
    rw [pathInterpAt_eq t path hc]
    obtain ⟨vx, hvx⟩ := linCall_isOk_below t _ hc h2 hx d hd
    obtain ⟨vy, hvy⟩ := linCall_isOk_below t _ hc h2 hy2 d hd
    rw [hvx]
    refine ⟨(vx, vy), ?_⟩
    show linCall t (path.map Prod.snd) d >>= _ = _
    rw [hvy]
    rfl

/-- Witness for C3 (amended) on the bent path `[(0,0),(1,0),(1,1)]` with
cumulative distances `[0,1,2]`: at distance 2 (the total length) the last
vertex is returned, at distance 3 an `IndexError` results. -/
theorem pathInterpolator_amended_witness :
    List.Chain' (· < ·) [(0 : ℝ), 1, 2] ∧
    pathInterpAt [(0 : ℝ), 1, 2] [((0 : ℝ), (0 : ℝ)), (1, 0), (1, 1)] 2 =
      .ok (1, 1) ∧
    pathInterpAt [(0 : ℝ), 1, 2] [((0 : ℝ), (0 : ℝ)), (1, 0), (1, 1)] 3 =
      .error .indexError := by
  have hc : List.Chain' (· < ·) [(0 : ℝ), 1, 2] :=
    List.chain'_cons.2 ⟨by norm_num,
      List.chain'_cons.2 ⟨by norm_num, List.chain'_singleton _⟩⟩
  have h := pathInterpolator_amended [(0 : ℝ), 1, 2]
    [((0 : ℝ), (0 : ℝ)), (1, 0), (1, 1)] hc (by norm_num) (by norm_num)
  refine ⟨hc, ?_, ?_⟩
  · have h1 := h.1
    rwa [show pyLast [(0 : ℝ), 1, 2] = 2 from rfl,
      show pyLastP [((0 : ℝ), (0 : ℝ)), (1, 0), (1, 1)] = (1, 1) from rfl] at h1
  · exact h.2.1 3 (by rw [show pyLast [(0 : ℝ), 1, 2] = 2 from rfl]; norm_num)

/-- C4: on a sub-path with pairwise-distinct consecutive vertices (the data
model's Path invariant) of total length `L` and pitch `p` with `0 < p < L`,
`distributeAlongPath` succeeds and returns exactly `floor(L/p) - 1` interior
candidates, placed at distances `k * L / floor(L/p)` that lie strictly
between the endpoints, at uniform spacing `L / floor(L/p)` which is at least
`p` and less than `2p`; and on a sub-path shorter than the pitch it returns
no candidates without error. -/
theorem distributeAlongPath_spec (path : PathR) (p : ℝ) (hp : 0 < p)
    (hlen : 2 ≤ path.length) (hseg : ∀ s ∈ segLengths path, 0 < s) :
    (p < totalLen path → ∃ pts, distributeAlongPath path p = .ok pts ∧
      (pts.length : ℤ) = ⌊totalLen path / p⌋ - 1 ∧
      p ≤ totalLen path / ((⌊totalLen path / p⌋ : ℤ) : ℝ) ∧
      totalLen path / ((⌊totalLen path / p⌋ : ℤ) : ℝ) < 2 * p ∧
      (∀ k : ℕ, 1 ≤ k → (k : ℤ) < ⌊totalLen path / p⌋ →
        0 < (k : ℝ) * totalLen path / ((⌊totalLen path / p⌋ : ℤ) : ℝ) ∧
        (k : ℝ) * totalLen path / ((⌊totalLen path / p⌋ : ℤ) : ℝ) <
          totalLen path)) ∧
    (totalLen path < p → distributeAlongPath path p = .ok []) := by
  have hc := getPathCumDist_chain path hseg
  have hL : 0 < totalLen path := totalLen_pos path hlen hseg
  have hcl : (getPathCumDist path).length = path.length := by
    rw [getPathCumDist_length, segLengths_length]
    omega
  have h2t : 2 ≤ (getPathCumDist path).length := by omega
  have hx : (path.map Prod.fst).length = (getPathCumDist path).length := by
    simp [hcl]
  have hy : (path.map Prod.snd).length = (getPathCumDist path).length := by
    simp [hcl]
  have hdist : ∀ q : ℝ, q ≠ 0 → distributeAlongPath path q =
      (intRange 1 ⌊totalLen path / q⌋).mapM (fun (ptIdx : ℤ) =>
        (fun d => do
          let x ← linCall (getPathCumDist path) (path.map Prod.fst) d
          let y ← linCall (getPathCumDist path) (path.map Prod.snd) d
          pure (x, y))
        ((ptIdx : ℝ) * totalLen path / ((⌊totalLen path / q⌋ : ℤ) : ℝ))) := by
    intro q hq
    simp only [distributeAlongPath, totalLen]
    rw [if_neg hq, mkPathInterpolator_ok _ _ hc]
    rfl
  constructor
  · intro hpL
    set n := ⌊totalLen path / p⌋ with hn
    have hn1 : 1 ≤ n := by
      rw [hn, Int.le_floor]
      push_cast
      rw [le_div_iff hp]
      linarith
    have hnpos : (0 : ℝ) < ((n : ℤ) : ℝ) := by
      have : (0 : ℤ) < n := by omega
      exact_mod_cast this
    have hfl : ((n : ℤ) : ℝ) ≤ totalLen path / p := by rw [hn]; exact Int.floor_le _
    have hfu : totalLen path / p < ((n : ℤ) : ℝ) + 1 := by
      rw [hn]
      exact Int.lt_floor_add_one _
    have hnp : ((n : ℤ) : ℝ) * p ≤ totalLen path := (le_div_iff hp).1 hfl
    have hnu : totalLen path < (((n : ℤ) : ℝ) + 1) * p := (div_lt_iff hp).1 hfu
    have hok : ∀ k ∈ intRange 1 n, ∃ v,
        (fun (ptIdx : ℤ) =>
          (fun d => do
            let x ← linCall (getPathCumDist path) (path.map Prod.fst) d
            let y ← linCall (getPathCumDist path) (path.map Prod.snd) d
            pure (x, y))
          ((ptIdx : ℝ) * totalLen path / ((n : ℤ) : ℝ))) k = .ok v := by
      intro k hk
      rw [mem_intRange] at hk
      have hkpos : (0 : ℝ) < ((k : ℤ) : ℝ) := by
        have : (0 : ℤ) < k := by omega
        exact_mod_cast this
      have hkltn : ((k : ℤ) : ℝ) < ((n : ℤ) : ℝ) := by exact_mod_cast hk.2
      have hd0 : 0 < (k : ℝ) * totalLen path / ((n : ℤ) : ℝ) :=
        div_pos (mul_pos hkpos hL) hnpos
      have hdL : (k : ℝ) * totalLen path / ((n : ℤ) : ℝ) ≤
          pyLast (getPathCumDist path) := by
        have hlt : (k : ℝ) * totalLen path / ((n : ℤ) : ℝ) < totalLen path := by
          rw [div_lt_iff hnpos]
          nlinarith
        unfold totalLen
        unfold totalLen at hlt
        linarith
      have hdh : (getPathCumDist path).headD 0 <
          (k : ℝ) * totalLen path / ((n : ℤ) : ℝ) := by
        rw [getPathCumDist_headD]
        exact hd0
      obtain ⟨vx, hvx⟩ := linCall_isOk_mid _ _ hc h2t hx _ hdh hdL
      obtain ⟨vy, hvy⟩ := linCall_isOk_mid _ _ hc h2t hy _ hdh hdL
      refine ⟨(vx, vy), ?_⟩
      show (do
        let x ← linCall (getPathCumDist path) (path.map Prod.fst)
          ((k : ℝ) * totalLen path / ((n : ℤ) : ℝ))
        let y ← linCall (getPathCumDist path) (path.map Prod.snd)
          ((k : ℝ) * totalLen path / ((n : ℤ) : ℝ))
        pure (x, y)) = Except.ok (vx, vy)
      rw [hvx]
      show linCall (getPathCumDist path) (path.map Prod.snd)
        ((k : ℝ) * totalLen path / ((n : ℤ) : ℝ)) >>= _ = _
      rw [hvy]
      rfl
    obtain ⟨pts, hpts, hlen2⟩ := mapM_ok_of_forall _ (intRange 1 n) hok
    refine ⟨pts, ?_, ?_, ?_, ?_, ?_⟩
    · rw [hdist p (ne_of_gt hp), ← hn]
      exact hpts
    · rw [hlen2, length_intRange]
      omega
    · rw [le_div_iff hnpos]
      nlinarith
    · rw [div_lt_iff hnpos]
      have hn1R : (1 : ℝ) ≤ ((n : ℤ) : ℝ) := by exact_mod_cast hn1
      nlinarith [mul_nonneg hp.le (sub_nonneg.2 hn1R)]
    · intro k hk1 hk2
      have hkpos : (0 : ℝ) < (k : ℝ) := by exact_mod_cast hk1
      have hkltn : (k : ℝ) < ((n : ℤ) : ℝ) := by exact_mod_cast hk2
      constructor
      · exact div_pos (mul_pos hkpos hL) hnpos
      · rw [div_lt_iff hnpos]
        nlinarith [mul_pos (sub_pos.2 hkltn) hL]
  · intro hLp
    have hn0 : ⌊totalLen path / p⌋ = 0 := by
      rw [Int.floor_eq_zero_iff, Set.mem_Ico]
      refine ⟨by positivity, (div_lt_one hp).2 hLp⟩
    rw [hdist p (ne_of_gt hp), hn0]
    rfl

/-- Witness for C4 on the straight segment `[(0,0),(5,0)]` with pitch 2:
total length 5, one interior candidate (`floor(5/2) - 1 = 1`). -/
theorem distributeAlongPath_spec_witness :
    (0 : ℝ) < 2 ∧ 2 ≤ ([((0 : ℝ), (0 : ℝ)), (5, 0)] : PathR).length ∧
    (∀ s ∈ segLengths [((0 : ℝ), (0 : ℝ)), (5, 0)], 0 < s) ∧
    (2 : ℝ) < totalLen [((0 : ℝ), (0 : ℝ)), (5, 0)] ∧
    (∃ pts, distributeAlongPath [((0 : ℝ), (0 : ℝ)), (5, 0)] 2 = .ok pts ∧
      (pts.length : ℤ) = 1) := by
  have hl5 : lineLength ((5 : ℝ), (0 : ℝ)) ((0 : ℝ), (0 : ℝ)) = 5 := by
    unfold lineLength
    rw [show ((5 : ℝ) - 0) ^ 2 + ((0 : ℝ) - 0) ^ 2 = 5 ^ 2 by ring]
    exact Real.sqrt_sq (by norm_num)
  have hsegs : segLengths [((0 : ℝ), (0 : ℝ)), (5, 0)] =
      [lineLength ((5 : ℝ), (0 : ℝ)) ((0 : ℝ), (0 : ℝ))] := rfl
  have hseg : ∀ s ∈ segLengths [((0 : ℝ), (0 : ℝ)), (5, 0)], 0 < s := by
    rw [hsegs, hl5]
    intro s hs
    rcases List.mem_singleton.1 hs with rfl
    norm_num
  have htot : totalLen [((0 : ℝ), (0 : ℝ)), (5, 0)] = 5 := by
    unfold totalLen getPathCumDist pyLast
    rw [hsegs, hl5, List.scanl_cons, List.scanl_nil]
    norm_num
  have h := distributeAlongPath_spec [((0 : ℝ), (0 : ℝ)), (5, 0)] 2
    (by norm_num) (by norm_num) hseg
  have h1 := h.1 (by rw [htot]; norm_num)
  obtain ⟨pts, hok, hlen2, _⟩ := h1
  refine ⟨by norm_num, by norm_num, hseg, by rw [htot]; norm_num,
    pts, hok, ?_⟩
  rw [hlen2, htot]
  norm_num

/-- Length of the first segment of a path (what `getLineLength` measures on a
well-formed path). -/
def fstSegLen (p : PathR) : ℝ := lineLength (pyG p 0) (pyG p 1)

lemma getLineLength_of_len2 (p : PathR) (h : 2 ≤ p.length) :
    getLineLength p = .ok (fstSegLen p) := by
  match p with
  | [] => simp at h
  | [a] => simp at h
  | a :: b :: rest => rfl

lemma getLineLength_short (p : PathR) (h : p.length < 2) :
    getLineLength p = .error .indexError := by
  match p with
  | [] => rfl
  | [a] => rfl
  | a :: b :: rest => simp at h; omega

lemma removeZero_filter : ∀ pathList : List PathR,
    (∀ p ∈ pathList, 2 ≤ p.length) →
    removeZeroLengthTracks pathList =
      .ok (pathList.filter (fun p => decide (0 < fstSegLen p))) := by
  intro pathList
  induction pathList with
  | nil => intro _; rfl
  | cons q rest ih =>
      intro h
      rw [removeZeroLengthTracks,
        getLineLength_of_len2 q (h q (List.mem_cons_self _ _))]
      show removeZeroLengthTracks rest >>= _ = _
      rw [ih (fun x hx => h x (List.mem_cons_of_mem _ hx))]
      show Except.ok (if 0 < fstSegLen q then _ else _) = _
      by_cases hq : 0 < fstSegLen q
      · rw [if_pos hq,
          @List.filter_cons_of_pos _ (fun p => decide (0 < fstSegLen p)) q rest
            (decide_eq_true hq)]
      · rw [if_neg hq,
          @List.filter_cons_of_neg _ (fun p => decide (0 < fstSegLen p)) q rest
            (by rw [decide_eq_true_eq]; exact hq)]

lemma removeZero_err : ∀ pl : List PathR, (∃ p ∈ pl, p.length < 2) →
    removeZeroLengthTracks pl = .error .indexError := by
  intro pl
  induction pl with
  | nil => rintro ⟨p, hp, _⟩; simp at hp
  | cons q rest ih =>
      rintro ⟨p, hp, hshort⟩
      rw [removeZeroLengthTracks]
      rcases List.mem_cons.1 hp with rfl | hp2
      · rw [getLineLength_short p hshort]
        rfl
      · by_cases hq : 2 ≤ q.length
        · rw [getLineLength_of_len2 q hq]
          show removeZeroLengthTracks rest >>= _ = _
          rw [ih ⟨p, hp2, hshort⟩]
          rfl
        · rw [getLineLength_short q (by omega)]
          rfl

lemma mapM_flatten_nil {α β : Type} (f : α → Except PyErr (List β)) :
    ∀ l : List α, (∀ a ∈ l, f a = .ok []) →
    ∃ out, l.mapM f = .ok out ∧ out.flatten = ([] : List β) := by
  intro l
  induction l with
  | nil => intro _; exact ⟨[], rfl, rfl⟩
  | cons a t ih =>
      intro h
      obtain ⟨out, hout, hfl⟩ := ih (fun x hx => h x (List.mem_cons_of_mem _ hx))
      refine ⟨[] :: out, ?_, by simp [hfl]⟩
      rw [List.mapM_cons, h a (List.mem_cons_self _ _), hout]
      rfl

lemma processOffsetPolygon_nil_paths (env : ClipperEnv) (viaOffset viaPitch : ℝ)
    (poly : PathR) :
    processOffsetPolygon env [] viaOffset viaPitch poly = .ok [] := by
  simp only [processOffsetPolygon]
  rw [if_pos (show (getPathsInsidePolygon env [] poly).length = 0 from rfl)]
  rfl

lemma genViaFence_nil (env : ClipperEnv) (off pitch : ℝ) :
    generateViaFence env [] off pitch = .ok [] := by
  unfold generateViaFence
  show ((env.expandPathsToPolygons [] off).mapM
      (processOffsetPolygon env [] off pitch) >>=
    fun parts => pure parts.flatten) = Except.ok []
  obtain ⟨out, hout, hfl⟩ := mapM_flatten_nil
    (processOffsetPolygon env [] off pitch)
    (env.expandPathsToPolygons [] off)
    (fun poly _ => processOffsetPolygon_nil_paths env off pitch poly)
  rw [hout]
  show Except.ok out.flatten = Except.ok []
  rw [hfl]

/-- C5 (amended): the zero-length filter keeps exactly the paths whose FIRST
segment has positive length (dropping, in particular, positive-total-length
paths whose first two vertices coincide); an empty path list produces an
empty candidate list without error; but a path with fewer than two vertices
raises an `IndexError` in the filter's length computation instead of being
skipped. -/
theorem zeroLengthFilter_amended :
    (∀ pathList : List PathR, (∀ p ∈ pathList, 2 ≤ p.length) →
      removeZeroLengthTracks pathList =
        .ok (pathList.filter (fun p => decide (0 < fstSegLen p)))) ∧
    (∀ (env : ClipperEnv) (off pitch : ℝ),
      generateViaFence env [] off pitch = .ok []) ∧
    (∀ (env : ClipperEnv) (pl : List PathR) (off pitch : ℝ),
      (∃ p ∈ pl, p.length < 2) →
      generateViaFence env pl off pitch = .error .indexError) := by
  refine ⟨removeZero_filter, genViaFence_nil, ?_⟩
  intro env pl off pitch hex
  unfold generateViaFence
  rw [removeZero_err pl hex]
  rfl

/-- Witness for C5 (amended) at concrete path lists. -/
theorem zeroLengthFilter_amended_witness :
    (∀ p ∈ [[((0 : ℝ), (0 : ℝ)), (1, 0)]], 2 ≤ p.length) ∧
    removeZeroLengthTracks [[((0 : ℝ), (0 : ℝ)), (1, 0)]] =
      .ok ([[((0 : ℝ), (0 : ℝ)), (1, 0)]].filter
        (fun p => decide (0 < fstSegLen p))) ∧
    generateViaFence envTriv [] 1 1 = .ok [] ∧
    (∃ p ∈ [[((42 : ℝ), (0 : ℝ))]], p.length < 2) ∧
    generateViaFence envTriv [[((42 : ℝ), (0 : ℝ))]] 1 1 =
      .error .indexError := by
  have h := zeroLengthFilter_amended
  have hmem : ∀ p ∈ [[((0 : ℝ), (0 : ℝ)), (1, 0)]], 2 ≤ List.length p := by
    intro p hp
    rcases List.mem_singleton.1 hp with rfl
    norm_num
  have hex : ∃ p ∈ [[((42 : ℝ), (0 : ℝ))]], List.length p < 2 := by
    refine ⟨[((42 : ℝ), (0 : ℝ))], List.mem_singleton_self _, by norm_num⟩
  exact ⟨hmem, h.1 _ hmem, h.2.1 envTriv 1 1, hex, h.2.2 envTriv _ 1 1 hex⟩

/-- C6 (amended): fence generation performs no up-front parameter validation:
it runs for any pitch and offset, including non-positive ones (on the empty
path list it succeeds regardless of parameters); a zero pitch raises a
`ZeroDivisionError` only when `distributeAlongPath` is reached, and a
negative pitch silently yields no interior candidates. -/
theorem param_validation_amended :
    (∀ (env : ClipperEnv) (off pitch : ℝ),
      generateViaFence env [] off pitch = .ok []) ∧
    (∀ path : PathR, distributeAlongPath path 0 = .error .zeroDivision) ∧
    (∀ (path : PathR) (q : ℝ), q < 0 → 2 ≤ path.length →
      (∀ s ∈ segLengths path, 0 < s) →
      distributeAlongPath path q = .ok []) := by
  refine ⟨genViaFence_nil, ?_, ?_⟩
  · intro path
    simp only [distributeAlongPath]
    rfl
  · intro path q hq h2 hseg
    have hc := getPathCumDist_chain path hseg
    have hL := totalLen_pos path h2 hseg
    unfold totalLen at hL
    have hn : ⌊pyLast (getPathCumDist path) / q⌋ < 0 := by
      have hdn : pyLast (getPathCumDist path) / q < 0 := div_neg_of_pos_of_neg hL hq
      exact_mod_cast Int.floor_lt.2 (by exact_mod_cast hdn)
    simp only [distributeAlongPath]
    rw [if_neg (ne_of_lt hq), mkPathInterpolator_ok _ _ hc]
    show (intRange 1 ⌊pyLast (getPathCumDist path) / q⌋).mapM _ = _
    rw [show intRange 1 ⌊pyLast (getPathCumDist path) / q⌋ = [] from by
      unfold intRange
      rw [show (⌊pyLast (getPathCumDist path) / q⌋ - 1).toNat = 0 by omega]
      rfl]
    rfl

/-- Witness for C6 (amended) on the straight segment `[(0,0),(5,0)]`. -/
theorem param_validation_amended_witness :
    (-1 : ℝ) < 0 ∧
    distributeAlongPath [((0 : ℝ), (0 : ℝ)), (5, 0)] 0 = .error .zeroDivision ∧
    distributeAlongPath [((0 : ℝ), (0 : ℝ)), (5, 0)] (-1) = .ok [] ∧
    generateViaFence envTriv [] (-1) (-1) = .ok [] := by
  have h := param_validation_amended
  have hl5 : lineLength ((5 : ℝ), (0 : ℝ)) ((0 : ℝ), (0 : ℝ)) = 5 := by
    unfold lineLength
    rw [show ((5 : ℝ) - 0) ^ 2 + ((0 : ℝ) - 0) ^ 2 = 5 ^ 2 by ring]
    exact Real.sqrt_sq (by norm_num)
  have hseg : ∀ s ∈ segLengths [((0 : ℝ), (0 : ℝ)), (5, 0)], 0 < s := by
    intro s hs
    rw [show segLengths [((0 : ℝ), (0 : ℝ)), (5, 0)] =
      [lineLength ((5 : ℝ), (0 : ℝ)) ((0 : ℝ), (0 : ℝ))] from rfl, hl5] at hs
    rcases List.mem_singleton.1 hs with rfl
    norm_num
  exact ⟨by norm_num, h.2.1 _,
    h.2.2 _ (-1) (by norm_num) (by norm_num) hseg,
    h.1 envTriv (-1) (-1)⟩

/-- C10: when no polygon edge passes exactly through any leaf vertex (so
`getPathsThroughPoints` on the trimmed polygon returns the empty list),
splitting yields zero fence paths and the polygon contributes zero via
candidates, without raising any error. -/
theorem no_touching_edges_zero_contribution (env : ClipperEnv)
    (pathList : List PathR) (viaOffset viaPitch : ℝ) (poly : PathR)
    (lv : List PointR × List ℝ) (T : PathR) (rest : List PathR)
    (hleaf : getLeafVertices (getPathsInsidePolygon env pathList poly) = .ok lv)
    (htrim : trimFlushPolygonAtVertices env poly lv.1 lv.2 (1.1 * viaOffset) =
      T :: rest)
    (hbutt : getPathsThroughPoints T lv.1 = []) :
    splitPathByPaths T (getPathsThroughPoints T lv.1) = .ok [] ∧
    processOffsetPolygon env pathList viaOffset viaPitch poly = .ok [] := by
  have hsplit : splitPathByPaths T (getPathsThroughPoints T lv.1) = .ok [] := by
    rw [hbutt]
    rfl
  refine ⟨hsplit, ?_⟩
  simp only [processOffsetPolygon]
  by_cases hloc : (getPathsInsidePolygon env pathList poly).length = 0
  · rw [if_pos hloc]
    rfl
  · rw [if_neg hloc, hleaf]
    show ((match trimFlushPolygonAtVertices env poly lv.1 lv.2 (1.1 * viaOffset) with
      | [] => Except.error PyErr.indexError
      | T2 :: _ => Except.ok T2) >>= _) = _
    rw [htrim]
    show (splitPathByPaths T (getPathsThroughPoints T lv.1) >>= _) = _
    rw [hsplit]
    rfl

lemma notOnLine_xgap (pt a b : PointR) (hpt : pt.1 ≤ 1) (ha : 2 ≤ a.1)
    (hb : 2 ≤ b.1) : ¬ isPointOnLine pt a b := by
  rintro ⟨hx, _, _⟩
  rcases hx with ⟨h1, h2⟩ | ⟨h1, h2⟩ <;> linarith

/-- Witness for C10: the square polygon `[(2,2),(3,2),(3,3),(2,3)]` has no
edge through the leaf vertices `(0,0)` and `(1,0)` of the single path, so it
contributes no via candidates and no error. -/
theorem no_touching_edges_witness :
    getLeafVertices (getPathsInsidePolygon envTriv
      [[((0 : ℝ), (0 : ℝ)), (1, 0)]]
      [((2 : ℝ), (2 : ℝ)), (3, 2), (3, 3), (2, 3)]) =
      .ok ([((0 : ℝ), (0 : ℝ)), (1, 0)], [0, Real.pi]) ∧
    trimFlushPolygonAtVertices envTriv
      [((2 : ℝ), (2 : ℝ)), (3, 2), (3, 3), (2, 3)]
      [((0 : ℝ), (0 : ℝ)), (1, 0)] [0, Real.pi] (1.1 * 1) =
      [((2 : ℝ), (2 : ℝ)), (3, 2), (3, 3), (2, 3)] :: [] ∧
    getPathsThroughPoints [((2 : ℝ), (2 : ℝ)), (3, 2), (3, 3), (2, 3)]
      [((0 : ℝ), (0 : ℝ)), (1, 0)] = [] ∧
    processOffsetPolygon envTriv [[((0 : ℝ), (0 : ℝ)), (1, 0)]] 1 1
      [((2 : ℝ), (2 : ℝ)), (3, 2), (3, 3), (2, 3)] = .ok [] := by
  have hco0 : countOcc ((0 : ℝ), (0 : ℝ)) [((0 : ℝ), (0 : ℝ)), (1, 0)] = 1 := by
    show ((if ((0 : ℝ), (0 : ℝ)) = ((0 : ℝ), (0 : ℝ)) then 1 else 0) +
      ((if ((1 : ℝ), (0 : ℝ)) = ((0 : ℝ), (0 : ℝ)) then 1 else 0) + 0)) = 1
    rw [if_pos rfl, if_neg (by
      intro hh
      rw [Prod.mk.injEq] at hh
      exact absurd hh.1 (by norm_num))]
  have hco1 : countOcc ((1 : ℝ), (0 : ℝ)) [((0 : ℝ), (0 : ℝ)), (1, 0)] = 1 := by
    show ((if ((0 : ℝ), (0 : ℝ)) = ((1 : ℝ), (0 : ℝ)) then 1 else 0) +
      ((if ((1 : ℝ), (0 : ℝ)) = ((1 : ℝ), (0 : ℝ)) then 1 else 0) + 0)) = 1
    rw [if_neg (by
      intro hh
      rw [Prod.mk.injEq] at hh
      exact absurd hh.1 (by norm_num)), if_pos rfl]
  have e1 : leafOfIdx [((0 : ℝ), (0 : ℝ)), (1, 0)]
      [((0 : ℝ), (0 : ℝ)), (1, 0)] 0 1 = .ok ([((0 : ℝ), (0 : ℝ))], [0]) := by
    unfold leafOfIdx
    rw [show pyGet [((0 : ℝ), (0 : ℝ)), (1, 0)] (0 : ℤ) =
      Except.ok ((0 : ℝ), (0 : ℝ)) from rfl]
    show (if countOcc ((0 : ℝ), (0 : ℝ)) [((0 : ℝ), (0 : ℝ)), (1, 0)] = 1
      then _ else _) = _
    rw [if_pos hco0]
    rw [show pyGet [((0 : ℝ), (0 : ℝ)), (1, 0)] (1 : ℤ) =
      Except.ok ((1 : ℝ), (0 : ℝ)) from rfl]
    show Except.ok ([((0 : ℝ), (0 : ℝ))],
      [getLineSlope ((1 : ℝ), (0 : ℝ)) ((0 : ℝ), (0 : ℝ))]) = _
    rw [show getLineSlope ((1 : ℝ), (0 : ℝ)) ((0 : ℝ), (0 : ℝ)) = 0 from by
      unfold getLineSlope
      rw [show (0 : ℝ) - 0 = 0 by norm_num, show (1 : ℝ) - 0 = 1 by norm_num,
        atan2_zero_one]]
  have e2 : leafOfIdx [((0 : ℝ), (0 : ℝ)), (1, 0)]
      [((0 : ℝ), (0 : ℝ)), (1, 0)] (-1) (-2) =
      .ok ([((1 : ℝ), (0 : ℝ))], [Real.pi]) := by
    unfold leafOfIdx
    rw [show pyGet [((0 : ℝ), (0 : ℝ)), (1, 0)] (-1 : ℤ) =
      Except.ok ((1 : ℝ), (0 : ℝ)) from rfl]
    show (if countOcc ((1 : ℝ), (0 : ℝ)) [((0 : ℝ), (0 : ℝ)), (1, 0)] = 1
      then _ else _) = _
    rw [if_pos hco1]
    rw [show pyGet [((0 : ℝ), (0 : ℝ)), (1, 0)] (-2 : ℤ) =
      Except.ok ((0 : ℝ), (0 : ℝ)) from rfl]
    show Except.ok ([((1 : ℝ), (0 : ℝ))],
      [getLineSlope ((0 : ℝ), (0 : ℝ)) ((1 : ℝ), (0 : ℝ))]) = _
    rw [show getLineSlope ((0 : ℝ), (0 : ℝ)) ((1 : ℝ), (0 : ℝ)) = Real.pi from by
      unfold getLineSlope
      rw [show (0 : ℝ) - 0 = 0 by norm_num, show (0 : ℝ) - 1 = -1 by norm_num,
        atan2_zero_negone]]
  have hleaf : getLeafVertices (getPathsInsidePolygon envTriv
      [[((0 : ℝ), (0 : ℝ)), (1, 0)]]
      [((2 : ℝ), (2 : ℝ)), (3, 2), (3, 3), (2, 3)]) =
      .ok ([((0 : ℝ), (0 : ℝ)), (1, 0)], [0, Real.pi]) := by
    show getLeafVertices [[((0 : ℝ), (0 : ℝ)), (1, 0)]] = _
    unfold getLeafVertices
    show leafGo [((0 : ℝ), (0 : ℝ)), (1, 0)] [[((0 : ℝ), (0 : ℝ)), (1, 0)]] = _
    simp only [leafGo, e1, e2, ok_bind]
    rfl
  have htrim : trimFlushPolygonAtVertices envTriv
      [((2 : ℝ), (2 : ℝ)), (3, 2), (3, 3), (2, 3)]
      [((0 : ℝ), (0 : ℝ)), (1, 0)] [0, Real.pi] (1.1 * 1) =
      [((2 : ℝ), (2 : ℝ)), (3, 2), (3, 3), (2, 3)] :: [] := rfl
  have hbutt : getPathsThroughPoints [((2 : ℝ), (2 : ℝ)), (3, 2), (3, 3), (2, 3)]
      [((0 : ℝ), (0 : ℝ)), (1, 0)] = [] := by
    have hnot : ∀ a b : PointR, 2 ≤ a.1 → 2 ≤ b.1 →
        ¬ (([((0 : ℝ), (0 : ℝ)), ((1 : ℝ), (0 : ℝ))].any
          (fun pt => decide (isPointOnLine pt a b))) = true) := by
      intro a b ha hb hany
      rw [List.any_eq_true] at hany
      obtain ⟨pt, hpt, hdec⟩ := hany
      rw [decide_eq_true_eq] at hdec
      have hpt1 : pt.1 ≤ 1 := by
        rcases List.mem_cons.1 hpt with rfl | hpt2
        · norm_num
        · rcases List.mem_singleton.1 hpt2 with rfl
          norm_num
      exact notOnLine_xgap pt a b hpt1 ha hb hdec
    unfold getPathsThroughPoints
    rw [List.filterMap_eq_nil]
    intro i hi
    rw [List.mem_range] at hi
    have hi4 : i < 4 := by simpa using hi
    interval_cases i <;>
      exact if_neg (hnot _ _
        (by norm_num [pyG, List.getD_cons_zero, List.getD_cons_succ])
        (by norm_num [pyG, List.getD_cons_zero, List.getD_cons_succ]))
  have hall := no_touching_edges_zero_contribution envTriv
    [[((0 : ℝ), (0 : ℝ)), (1, 0)]] 1 1
    [((2 : ℝ), (2 : ℝ)), (3, 2), (3, 3), (2, 3)]
    ([((0 : ℝ), (0 : ℝ)), (1, 0)], [0, Real.pi])
    [((2 : ℝ), (2 : ℝ)), (3, 2), (3, 3), (2, 3)] [] hleaf htrim hbutt
  exact ⟨hleaf, htrim, hbutt, hall.2⟩

end

end ViaFence
